import Mathlib

set_option maxHeartbeats 2000000
set_option maxRecDepth 4000

/-!
Verification of the rchess move-generation core.

The definitions below are a shallow embedding of src/src/pieces.rs and
src/src/board.rs.  Machine integers are modelled as follows: u8 values
become Nat (with explicit mod-256 truncation where a Rust `as u8` cast or
a u8 addition occurs), i32 values become Int (with `wrap32` where a
wrapping i32 addition can overflow).  `HashMap::insert` is modelled by an
association list whose lookups see the most recent insertion first.
-/

namespace RChess

/-- Truncating cast to u8 (`x as u8` in Rust): the low 8 bits of the
twos-complement representation, i.e. x mod 256. -/
def toU8 (x : Int) : Nat := (x % 256).toNat

/-- Wrapping i32 arithmetic: reduce an unbounded integer into the range
of a 32-bit twos-complement integer. -/
def wrap32 (x : Int) : Int := (x + 2 ^ 31) % 2 ^ 32 - 2 ^ 31

/-- Internal square (`Square` in src/src/pieces.rs): file and rank are u8
fields, zero-indexed; `Square.new` enforces the [0,7] board range. -/
structure Square where
  file : Nat
  rank : Nat
  deriving DecidableEq, Repr

/-- `Square::new` (src/src/pieces.rs lines 16-22): construction fails
outside the board. -/
def Square.new (file rank : Nat) : Option Square :=
  if file ≤ 7 ∧ rank ≤ 7 then some ⟨file, rank⟩ else none

/-- External snapshot position (proto `Position`): one-indexed i32
file/rank, derived linear index, derived algebraic string. -/
structure Position where
  file : Int
  rank : Int
  index : Int
  algebraic : String
  deriving DecidableEq, Repr

/-- `Square::from_proto` (src/src/pieces.rs lines 25-29): each coordinate is
cast to u8 and decremented with `saturating_sub(1)` (on Nat, truncated
subtraction is exactly the saturating subtraction of u8). -/
def Square.from_proto (pos : Position) : Option Square :=
  Square.new (toU8 pos.file - 1) (toU8 pos.rank - 1)

/-- `Square::to_algebraic` (src/src/pieces.rs lines 42-48): the letter with
code 97 + file (a u8 addition, hence the mod 256) followed by the decimal
digits of rank + 1 (also a u8 addition). -/
def Square.to_algebraic (s : Square) : String :=
  String.mk [Char.ofNat ((97 + s.file) % 256)] ++ toString ((s.rank + 1) % 256)

/-- `Square::to_proto` (src/src/pieces.rs lines 32-39): one-indexed
coordinates and the derived rank*8+file index, all computed in u8
before the widening cast to i32. -/
def Square.to_proto (s : Square) : Position :=
  { file := (((s.file + 1) % 256 : Nat) : Int)
  , rank := (((s.rank + 1) % 256 : Nat) : Int)
  , index := (((s.rank * 8 + s.file) % 256 : Nat) : Int)
  , algebraic := s.to_algebraic }

/-- Piece color (src/src/pieces.rs lines 58-62). -/
inductive Color where
  | White
  | Black
  deriving DecidableEq, Repr

/-- `Color::opposite` (src/src/pieces.rs lines 66-71). -/
def Color.opposite : Color → Color
  | .White => .Black
  | .Black => .White

/-- `Color::from_proto` (src/src/pieces.rs lines 74-80): unknown codes
default to White. -/
def Color.from_proto (protoColor : Int) : Color :=
  if protoColor = 1 then .White else if protoColor = 2 then .Black else .White

/-- `Color::to_proto` (src/src/pieces.rs lines 83-88). -/
def Color.to_proto : Color → Int
  | .White => 1
  | .Black => 2

/-- The six-valued piece type tag (src/src/pieces.rs lines 101-109). -/
inductive PieceType where
  | King
  | Queen
  | Rook
  | Bishop
  | Knight
  | Pawn
  deriving DecidableEq, Repr

/-- Snapshot data of a King (proto `King`, used in src/src/pieces.rs
lines 160-185). -/
structure KingData where
  color : Int
  position : Option Position
  has_moved : Bool
  deriving DecidableEq, Repr

/-- Snapshot data of a Queen (proto `Queen`). -/
structure QueenData where
  color : Int
  position : Option Position
  deriving DecidableEq, Repr

/-- Snapshot data of a Knight (proto `Knight`). -/
structure KnightData where
  color : Int
  position : Option Position
  deriving DecidableEq, Repr

/-- Snapshot data of a Bishop (proto `Bishop`): carries a square-color tag. -/
structure BishopData where
  color : Int
  position : Option Position
  square_color : Int
  deriving DecidableEq, Repr

/-- Snapshot data of a Pawn (proto `Pawn`, used in src/src/pieces.rs
lines 502-559). -/
structure PawnData where
  color : Int
  position : Option Position
  has_moved : Bool
  promoted_to : Int
  en_passant_vulnerable : Bool
  deriving DecidableEq, Repr

/-- The snapshot piece union `proto::piece::Kind`.  It has exactly five
variants: the match in `Board::piece_color` (src/src/board.rs lines
97-109) is exhaustive over King, Queen, Knight, Bishop and Pawn, and
build.rs compiles king/queen/knight/bishop/pawn proto files but no rook
proto.  There is no Rook variant. -/
inductive Kind where
  | King : KingData → Kind
  | Queen : QueenData → Kind
  | Knight : KnightData → Kind
  | Bishop : BishopData → Kind
  | Pawn : PawnData → Kind
  deriving DecidableEq, Repr

/-- The piece type tag represented by a snapshot kind. -/
def Kind.kindType : Kind → PieceType
  | .King _ => .King
  | .Queen _ => .Queen
  | .Knight _ => .Knight
  | .Bishop _ => .Bishop
  | .Pawn _ => .Pawn

/-- Snapshot piece (proto `Piece`): an optional kind and a captured flag. -/
structure ProtoPiece where
  kind : Option Kind
  captured : Bool
  deriving DecidableEq, Repr

/-- C2: the external snapshot representation supports only five piece
variants; no value of the snapshot union represents a Rook, so — contrary
to the requirement that all six variants round-trip through the snapshot
and that the Board Index resolve color and position for all six kinds — a
Rook cannot be stored in or looked up from the index at all.  This theorem
records the code-side fact at the root of the divergence. -/
theorem snapshot_kind_has_no_rook : ∀ k : Kind, k.kindType ≠ PieceType.Rook := by
  intro k
  cases k <;> simp [Kind.kindType]

/-- C7: for every on-board square, `to_proto` produces external file+1,
rank+1, linear index rank*8+file and the algebraic string with the letter
of code 97+file and the digit of code 49+rank; `from_proto` recovers the
original square. -/
theorem to_proto_round_trip (s : Square) (hf : s.file ≤ 7) (hr : s.rank ≤ 7) :
    s.to_proto = { file := (s.file : Int) + 1
                 , rank := (s.rank : Int) + 1
                 , index := (s.rank : Int) * 8 + (s.file : Int)
                 , algebraic := String.mk [Char.ofNat (97 + s.file), Char.ofNat (49 + s.rank)] } ∧
    Square.from_proto s.to_proto = some s := by
  obtain ⟨f, r⟩ := s
  have hf2 : f ≤ 7 := hf
  have hr2 : r ≤ 7 := hr
  clear hf hr
  interval_cases f <;> interval_cases r <;> decide

/-- C7 witness: the round trip at the concrete square e4 (file 4, rank 3). -/
theorem to_proto_round_trip_witness :
    Square.from_proto (Square.to_proto ⟨4, 3⟩) = some ⟨4, 3⟩ :=
  (to_proto_round_trip ⟨4, 3⟩ (by decide) (by decide)).2

/-- Modelled from the spec for comparison with the code: map an external
coordinate to internal by subtracting one with a clamp at zero, and accept
exactly when both results lie in [0,7]. -/
def specFromExternal (f r : Int) : Option Square :=
  let file := if f - 1 < 0 then 0 else f - 1
  let rank := if r - 1 < 0 then 0 else r - 1
  if file ≤ 7 ∧ rank ≤ 7 then some ⟨file.toNat, rank.toNat⟩ else none

/-- C8 counterexample: at external file 257 the code first truncates to u8
(257 mod 256 = 1), then saturates (1 - 1 = 0) and accepts the position as
internal square (0,0), while the claimed arithmetic (257 - 1 = 256, not in
[0,7]) demands rejection. -/
theorem from_proto_truncation_counterexample :
    Square.from_proto ⟨257, 1, 0, ""⟩ = some ⟨0, 0⟩ ∧
    specFromExternal 257 1 = none := by
  constructor <;> decide

/-- C8 amended: `from_proto` first truncates each external i32 coordinate
to u8 (mod 256), then decrements with saturation at zero, and returns
some square exactly when both resulting values lie in [0,7]; for external
coordinates within the u8 range [0,255] this agrees with the claimed
subtract-one-clamped-at-zero description. -/
theorem from_proto_characterization (pos : Position) :
    Square.from_proto pos =
      (if toU8 pos.file - 1 ≤ 7 ∧ toU8 pos.rank - 1 ≤ 7
       then some ⟨toU8 pos.file - 1, toU8 pos.rank - 1⟩ else none) ∧
    (0 ≤ pos.file → pos.file ≤ 255 → 0 ≤ pos.rank → pos.rank ≤ 255 →
      Square.from_proto pos = specFromExternal pos.file pos.rank) := by
  constructor
  · rfl
  · intro hf0 hf1 hr0 hr1
    have hf : toU8 pos.file = pos.file.toNat := by
      unfold toU8; omega
    have hr : toU8 pos.rank = pos.rank.toNat := by
      unfold toU8; omega
    unfold Square.from_proto Square.new specFromExternal
    rw [hf, hr]
    have e1 : (if pos.file - 1 < 0 then (0 : Int) else pos.file - 1).toNat
        = pos.file.toNat - 1 := by
      split <;> omega
    have e2 : (if pos.rank - 1 < 0 then (0 : Int) else pos.rank - 1).toNat
        = pos.rank.toNat - 1 := by
      split <;> omega
    have c1 : ((if pos.file - 1 < 0 then (0 : Int) else pos.file - 1) ≤ 7)
        ↔ (pos.file.toNat - 1 ≤ 7) := by
      split <;> omega
    have c2 : ((if pos.rank - 1 < 0 then (0 : Int) else pos.rank - 1) ≤ 7)
        ↔ (pos.rank.toNat - 1 ≤ 7) := by
      split <;> omega
    simp only [e1, e2, c1, c2]

/-- C8 witness: within the u8 range the code and the claimed description
agree, here at external coordinates (5,4). -/
theorem from_proto_characterization_witness :
    Square.from_proto ⟨5, 4, 0, ""⟩ = specFromExternal 5 4 :=
  (from_proto_characterization ⟨5, 4, 0, ""⟩).2 (by decide) (by decide) (by decide) (by decide)

/-- `Board::piece_color` (src/src/board.rs lines 97-109): resolve the color
of a snapshot piece; none when the kind is absent. -/
def piece_color (piece : ProtoPiece) : Option Color :=
  match piece.kind with
  | some (.King k) => some (Color.from_proto k.color)
  | some (.Queen q) => some (Color.from_proto q.color)
  | some (.Knight n) => some (Color.from_proto n.color)
  | some (.Bishop b) => some (Color.from_proto b.color)
  | some (.Pawn p) => some (Color.from_proto p.color)
  | none => none

/-- `Board::piece_square` (src/src/board.rs lines 112-124): resolve the
square of a snapshot piece; none when the kind or position is absent or
the position is off-board. -/
def piece_square (piece : ProtoPiece) : Option Square :=
  match piece.kind with
  | some (.King k) => k.position.bind Square.from_proto
  | some (.Queen q) => q.position.bind Square.from_proto
  | some (.Knight n) => n.position.bind Square.from_proto
  | some (.Bishop b) => b.position.bind Square.from_proto
  | some (.Pawn p) => p.position.bind Square.from_proto
  | none => none

/-- The Board Index state (src/src/board.rs lines 10-17): square-to-piece
map (association list, newest insertion first, mirroring that HashMap
insertion overwrites) and the color-partitioned piece lists. -/
structure Board where
  square_to_piece : List (Square × ProtoPiece)
  white_pieces : List ProtoPiece
  black_pieces : List ProtoPiece
  deriving DecidableEq, Repr

/-- The square-map insertion of one loop iteration of
`Board::rebuild_indices` (src/src/board.rs lines 50-53). -/
def squareStep (b : Board) (piece : ProtoPiece) : Board :=
  match piece_square piece with
  | some sq => { b with square_to_piece := (sq, piece) :: b.square_to_piece }
  | none => b

/-- The color-list push of one loop iteration of `Board::rebuild_indices`
(src/src/board.rs lines 55-61). -/
def colorStep (b1 : Board) (piece : ProtoPiece) : Board :=
  match piece_color piece with
  | some .White => { b1 with white_pieces := b1.white_pieces ++ [piece] }
  | some .Black => { b1 with black_pieces := b1.black_pieces ++ [piece] }
  | none => b1

/-- One iteration of the piece loop in `Board::rebuild_indices`
(src/src/board.rs lines 45-62): captured pieces are skipped, then the
square-map insertion and the color-list push run independently. -/
def rebuildStep (b : Board) (piece : ProtoPiece) : Board :=
  if piece.captured then b else colorStep (squareStep b piece) piece

/-- `Board::from_proto` followed by `rebuild_indices`: build the index
from the snapshot piece list (src/src/board.rs lines 21-30 and 39-64). -/
def mkBoard (pieces : List ProtoPiece) : Board :=
  pieces.foldl rebuildStep ⟨[], [], []⟩

/-- `Board::piece_at` (src/src/board.rs lines 67-69). -/
def piece_at (b : Board) (s : Square) : Option ProtoPiece :=
  (b.square_to_piece.find? (fun e => e.1 == s)).map (fun e => e.2)

/-- `Board::is_empty_or_capturable` (src/src/board.rs lines 72-81). -/
def is_empty_or_capturable (b : Board) (s : Square) (c : Color) : Bool :=
  match piece_at b s with
  | some piece => piece_color piece != some c
  | none => true

/-- The square-map entry a snapshot piece contributes during rebuild. -/
def indexEntry (q : ProtoPiece) : Option (Square × ProtoPiece) :=
  if q.captured then none else (piece_square q).map (fun sq => (sq, q))

/-- All square-map entries contributed by a snapshot piece list, in
iteration order. -/
def indexEntries (ps : List ProtoPiece) : List (Square × ProtoPiece) :=
  ps.filterMap indexEntry

theorem colorStep_map (b1 : Board) (q : ProtoPiece) :
    (colorStep b1 q).square_to_piece = b1.square_to_piece := by
  cases h : piece_color q with
  | none => simp [colorStep, h]
  | some c => cases c <;> simp [colorStep, h]

theorem squareStep_white (b : Board) (q : ProtoPiece) :
    (squareStep b q).white_pieces = b.white_pieces := by
  cases h : piece_square q <;> simp [squareStep, h]

theorem squareStep_black (b : Board) (q : ProtoPiece) :
    (squareStep b q).black_pieces = b.black_pieces := by
  cases h : piece_square q <;> simp [squareStep, h]

theorem colorStep_white (b1 : Board) (q : ProtoPiece) :
    (colorStep b1 q).white_pieces
      = b1.white_pieces ++ (if piece_color q = some Color.White then [q] else []) := by
  cases h : piece_color q with
  | none => simp [colorStep, h]
  | some c => cases c <;> simp [colorStep, h]

theorem colorStep_black (b1 : Board) (q : ProtoPiece) :
    (colorStep b1 q).black_pieces
      = b1.black_pieces ++ (if piece_color q = some Color.Black then [q] else []) := by
  cases h : piece_color q with
  | none => simp [colorStep, h]
  | some c => cases c <;> simp [colorStep, h]

theorem rebuildStep_map (b : Board) (q : ProtoPiece) :
    (rebuildStep b q).square_to_piece = (indexEntry q).toList ++ b.square_to_piece := by
  cases hc : q.captured
  · rw [rebuildStep, if_neg (by simp [hc]), colorStep_map]
    cases hs : piece_square q <;> simp [squareStep, indexEntry, hc, hs]
  · rw [rebuildStep, if_pos (by simp [hc])]
    simp [indexEntry, hc]

theorem rebuildStep_white (b : Board) (q : ProtoPiece) :
    (rebuildStep b q).white_pieces
      = b.white_pieces
          ++ (if q.captured = false ∧ piece_color q = some Color.White then [q] else []) := by
  cases hc : q.captured
  · rw [rebuildStep, if_neg (by simp [hc]), colorStep_white, squareStep_white]
    by_cases h : piece_color q = some Color.White <;> simp [h, hc]
  · rw [rebuildStep, if_pos (by simp [hc])]
    simp [hc]

theorem rebuildStep_black (b : Board) (q : ProtoPiece) :
    (rebuildStep b q).black_pieces
      = b.black_pieces
          ++ (if q.captured = false ∧ piece_color q = some Color.Black then [q] else []) := by
  cases hc : q.captured
  · rw [rebuildStep, if_neg (by simp [hc]), colorStep_black, squareStep_black]
    by_cases h : piece_color q = some Color.Black <;> simp [h, hc]
  · rw [rebuildStep, if_pos (by simp [hc])]
    simp [hc]

theorem foldl_rebuild_map (ps : List ProtoPiece) (b : Board) :
    (ps.foldl rebuildStep b).square_to_piece
      = (indexEntries ps).reverse ++ b.square_to_piece := by
  induction ps generalizing b with
  | nil => simp [indexEntries]
  | cons q rest ih =>
    rw [List.foldl_cons, ih, rebuildStep_map]
    cases h : indexEntry q <;> simp [indexEntries, List.filterMap_cons, h]

theorem foldl_rebuild_white (ps : List ProtoPiece) (b : Board) :
    (ps.foldl rebuildStep b).white_pieces
      = b.white_pieces
          ++ ps.filter (fun q => !q.captured && (piece_color q == some Color.White)) := by
  induction ps generalizing b with
  | nil => simp
  | cons q rest ih =>
    rw [List.foldl_cons, ih, rebuildStep_white, List.filter_cons]
    by_cases h : (!q.captured && (piece_color q == some Color.White)) = true
    · have h1 : q.captured = false ∧ piece_color q = some Color.White := by
        simpa [Bool.and_eq_true, Bool.not_eq_true', beq_iff_eq] using h
      simp [h, h1]
    · have h1 : ¬(q.captured = false ∧ piece_color q = some Color.White) := by
        intro hcontra
        exact h (by simp [Bool.and_eq_true, Bool.not_eq_true', beq_iff_eq, hcontra.1, hcontra.2])
      simp [h, h1]

theorem foldl_rebuild_black (ps : List ProtoPiece) (b : Board) :
    (ps.foldl rebuildStep b).black_pieces
      = b.black_pieces
          ++ ps.filter (fun q => !q.captured && (piece_color q == some Color.Black)) := by
  induction ps generalizing b with
  | nil => simp
  | cons q rest ih =>
    rw [List.foldl_cons, ih, rebuildStep_black, List.filter_cons]
    by_cases h : (!q.captured && (piece_color q == some Color.Black)) = true
    · have h1 : q.captured = false ∧ piece_color q = some Color.Black := by
        simpa [Bool.and_eq_true, Bool.not_eq_true', beq_iff_eq] using h
      simp [h, h1]
    · have h1 : ¬(q.captured = false ∧ piece_color q = some Color.Black) := by
        intro hcontra
        exact h (by simp [Bool.and_eq_true, Bool.not_eq_true', beq_iff_eq, hcontra.1, hcontra.2])
      simp [h, h1]

theorem mkBoard_map (ps : List ProtoPiece) :
    (mkBoard ps).square_to_piece = (indexEntries ps).reverse := by
  rw [mkBoard, foldl_rebuild_map]
  simp

theorem mem_mkBoard_white {ps : List ProtoPiece} {p : ProtoPiece} :
    p ∈ (mkBoard ps).white_pieces
      ↔ p ∈ ps ∧ p.captured = false ∧ piece_color p = some Color.White := by
  rw [mkBoard, foldl_rebuild_white]
  simp [List.mem_filter, Bool.and_eq_true, Bool.not_eq_true', beq_iff_eq, and_assoc]

theorem mem_mkBoard_black {ps : List ProtoPiece} {p : ProtoPiece} :
    p ∈ (mkBoard ps).black_pieces
      ↔ p ∈ ps ∧ p.captured = false ∧ piece_color p = some Color.Black := by
  rw [mkBoard, foldl_rebuild_black]
  simp [List.mem_filter, Bool.and_eq_true, Bool.not_eq_true', beq_iff_eq, and_assoc]

theorem indexEntry_eq_some {q : ProtoPiece} {e : Square × ProtoPiece} :
    indexEntry q = some e ↔ q.captured = false ∧ piece_square q = some e.1 ∧ e.2 = q := by
  obtain ⟨s1, p1⟩ := e
  dsimp only
  cases hc : q.captured
  · cases hs : piece_square q with
    | none => simp [indexEntry, hc, hs]
    | some sq =>
      constructor
      · intro h
        have h2 : (piece_square q).map (fun sq => (sq, q)) = some (s1, p1) := by
          simpa [indexEntry, hc] using h
        rw [hs] at h2
        simp only [Option.map_some', Option.some.injEq] at h2
        refine ⟨rfl, ?_, ?_⟩
        · exact congrArg some (congrArg Prod.fst h2)
        · exact (congrArg Prod.snd h2).symm
      · rintro ⟨-, h1, h2⟩
        have h1s : sq = s1 := Option.some.inj h1
        simp [indexEntry, hc, hs, h1s, h2]
  · simp [indexEntry, hc]

theorem mem_indexEntries {ps : List ProtoPiece} {s : Square} {p : ProtoPiece} :
    (s, p) ∈ indexEntries ps
      ↔ p ∈ ps ∧ p.captured = false ∧ piece_square p = some s := by
  rw [indexEntries, List.mem_filterMap]
  constructor
  · rintro ⟨q, hq, hqe⟩
    obtain ⟨h1, h2, h3⟩ := indexEntry_eq_some.mp hqe
    subst h3
    exact ⟨hq, h1, h2⟩
  · rintro ⟨hmem, hcap, hsq⟩
    exact ⟨p, hmem, indexEntry_eq_some.mpr ⟨hcap, hsq, rfl⟩⟩

theorem piece_at_mkBoard_some {ps : List ProtoPiece} {s : Square} {p : ProtoPiece}
    (h : piece_at (mkBoard ps) s = some p) :
    p ∈ ps ∧ p.captured = false ∧ piece_square p = some s := by
  unfold piece_at at h
  cases hfind : List.find? (fun e => e.1 == s) (mkBoard ps).square_to_piece with
  | none => rw [hfind] at h; simp at h
  | some e =>
    rw [hfind] at h
    simp only [Option.map_some'] at h
    have hmem := List.mem_of_find?_eq_some hfind
    have hpred := List.find?_some hfind
    rw [mkBoard_map, List.mem_reverse] at hmem
    have he1 : e.1 = s := by simpa [beq_iff_eq] using hpred
    have he2 : e.2 = p := Option.some.inj h
    have hsp : (s, p) ∈ indexEntries ps := by
      rw [← he1, ← he2]
      exact hmem
    exact mem_indexEntries.mp hsp

theorem piece_at_mkBoard_occupied {ps : List ProtoPiece} {s : Square} {p : ProtoPiece}
    (hp : p ∈ ps) (hc : p.captured = false) (hs : piece_square p = some s) :
    ∃ q, piece_at (mkBoard ps) s = some q := by
  unfold piece_at
  cases hfind : List.find? (fun e => e.1 == s) (mkBoard ps).square_to_piece with
  | none =>
    exfalso
    have hmem : (s, p) ∈ (mkBoard ps).square_to_piece := by
      rw [mkBoard_map, List.mem_reverse]
      exact mem_indexEntries.mpr ⟨hp, hc, hs⟩
    have := List.find?_eq_none.mp hfind (s, p) hmem
    simp at this
  | some e => exact ⟨e.2, by simp⟩

theorem piece_color_isSome_of_square {p : ProtoPiece} {s : Square}
    (h : piece_square p = some s) : ∃ c, piece_color p = some c := by
  cases hk : p.kind with
  | none => rw [piece_square, hk] at h; simp at h
  | some k => cases k <;> exact ⟨_, by rw [piece_color, hk]⟩

/-- C6: over any constructed Board Index, `is_empty_or_capturable` is true
exactly on squares that are unoccupied or occupied by a piece whose
resolved color differs from the given color, and false exactly on squares
occupied by a piece of the given color. -/
theorem is_empty_or_capturable_spec (ps : List ProtoPiece) (s : Square) (c : Color) :
    (is_empty_or_capturable (mkBoard ps) s c = true ↔
      (piece_at (mkBoard ps) s = none ∨
       ∃ p c2, piece_at (mkBoard ps) s = some p ∧ piece_color p = some c2 ∧ c2 ≠ c)) ∧
    (is_empty_or_capturable (mkBoard ps) s c = false ↔
      (∃ p, piece_at (mkBoard ps) s = some p ∧ piece_color p = some c)) := by
  cases h : piece_at (mkBoard ps) s with
  | none =>
    constructor <;> simp [is_empty_or_capturable, h]
  | some p =>
    obtain ⟨c2, hc2⟩ := piece_color_isSome_of_square (piece_at_mkBoard_some h).2.2
    have hval : is_empty_or_capturable (mkBoard ps) s c = (piece_color p != some c) := by
      simp [is_empty_or_capturable, h]
    constructor
    · rw [hval]
      simp [hc2, bne_iff_ne]
    · rw [hval]
      simp [hc2, bne_eq_false_iff_eq]

/-- A non-captured white King whose snapshot position is absent. -/
def orphanKing : ProtoPiece := ⟨some (.King ⟨1, none, false⟩), false⟩

/-- C3 counterexample: a non-captured piece whose position does not resolve
is claimed to appear in neither index structure, yet it does appear in the
white piece list (while being absent from the square map). -/
theorem rebuild_orphan_in_color_list :
    orphanKing.captured = false ∧
    piece_square orphanKing = none ∧
    piece_color orphanKing = some Color.White ∧
    (mkBoard [orphanKing]).white_pieces = [orphanKing] ∧
    (mkBoard [orphanKing]).square_to_piece = [] := by
  refine ⟨rfl, rfl, rfl, ?_, ?_⟩ <;> decide

/-- C3 amended: exclusion during Board Index construction is per structure,
not global — a non-captured piece lacking a resolvable color (absent kind)
appears in neither color list nor the square map; a piece lacking only a
resolvable position is excluded from the square map but still appears in
its color list; a non-captured piece with resolvable color appears in the
matching color list, and when its position also resolves, its square is
occupied in the map by a non-captured listed piece resolving there (a
later insertion for the same square may overwrite). -/
theorem rebuild_exclusion_per_structure (ps : List ProtoPiece) (p : ProtoPiece) :
    (piece_color p = none →
       p ∉ (mkBoard ps).white_pieces ∧ p ∉ (mkBoard ps).black_pieces) ∧
    (piece_square p = none → ∀ s, piece_at (mkBoard ps) s ≠ some p) ∧
    (p ∈ ps → p.captured = false → piece_color p = some Color.White →
       p ∈ (mkBoard ps).white_pieces) ∧
    (p ∈ ps → p.captured = false → piece_color p = some Color.Black →
       p ∈ (mkBoard ps).black_pieces) ∧
    (p ∈ ps → p.captured = false → ∀ s, piece_square p = some s →
       ∃ q, piece_at (mkBoard ps) s = some q ∧ q ∈ ps ∧ q.captured = false ∧
         piece_square q = some s) := by
  refine ⟨?_, ?_, ?_, ?_, ?_⟩
  · intro hcol
    constructor
    · intro hmem
      have := (mem_mkBoard_white.mp hmem).2.2
      rw [hcol] at this
      exact Option.noConfusion this
    · intro hmem
      have := (mem_mkBoard_black.mp hmem).2.2
      rw [hcol] at this
      exact Option.noConfusion this
  · intro hsq s hat
    have := (piece_at_mkBoard_some hat).2.2
    rw [hsq] at this
    exact Option.noConfusion this
  · intro hmem hcap hcol
    exact mem_mkBoard_white.mpr ⟨hmem, hcap, hcol⟩
  · intro hmem hcap hcol
    exact mem_mkBoard_black.mpr ⟨hmem, hcap, hcol⟩
  · intro hmem hcap s hsq
    obtain ⟨q, hq⟩ := piece_at_mkBoard_occupied hmem hcap hsq
    obtain ⟨h1, h2, h3⟩ := piece_at_mkBoard_some hq
    exact ⟨q, hq, h1, h2, h3⟩

/-- C3 witness: a concrete non-captured white King with a resolvable
position appears in the white list of the index built over it. -/
theorem rebuild_exclusion_witness :
    (⟨some (.King ⟨1, some ⟨5, 5, 0, ""⟩, false⟩), false⟩ : ProtoPiece)
      ∈ (mkBoard [⟨some (.King ⟨1, some ⟨5, 5, 0, ""⟩, false⟩), false⟩]).white_pieces :=
  (rebuild_exclusion_per_structure
      [⟨some (.King ⟨1, some ⟨5, 5, 0, ""⟩, false⟩), false⟩]
      ⟨some (.King ⟨1, some ⟨5, 5, 0, ""⟩, false⟩), false⟩).2.2.1
    (by decide) (by decide) (by decide)

theorem toU8_small {x : Int} (h0 : 0 ≤ x) (h : x < 256) : toU8 x = x.toNat := by
  unfold toU8; omega

theorem Square.new_eq_some {f r : Nat} {t : Square} :
    Square.new f r = some t ↔ f ≤ 7 ∧ r ≤ 7 ∧ t = ⟨f, r⟩ := by
  unfold Square.new
  by_cases h : f ≤ 7 ∧ r ≤ 7
  · rw [if_pos h]
    simp only [Option.some.injEq]
    constructor
    · intro h2
      exact ⟨h.1, h.2, h2.symm⟩
    · rintro ⟨-, -, h2⟩
      exact h2.symm
  · rw [if_neg h]
    constructor
    · intro h2
      exact Option.noConfusion h2
    · rintro ⟨h1, h2, -⟩
      exact absurd ⟨h1, h2⟩ h

theorem Square.new_eq_none {f r : Nat} :
    Square.new f r = none ↔ ¬(f ≤ 7 ∧ r ≤ 7) := by
  unfold Square.new
  by_cases h : f ≤ 7 ∧ r ≤ 7
  · rw [if_pos h]
    constructor
    · intro h2
      exact Option.noConfusion h2
    · intro h2
      exact absurd h h2
  · rw [if_neg h]
    simp [h]

/-- Pawn forward direction (src/src/board.rs lines 170-173): rank +1 for
White, -1 for Black. -/
def pawnDir : Color → Int
  | .White => 1
  | .Black => -1

/-- The forward block of `Board::pawn_moves` (src/src/board.rs lines
175-195): the one-step square when unoccupied, then nested inside it the
double step when the pawn has not moved and the two-step square is also
unoccupied. -/
def pawnForward (b : Board) (src : Square) (c : Color) (has_moved : Bool) : List Square :=
  match Square.new src.file (toU8 ((src.rank : Int) + pawnDir c)) with
  | some target =>
    if piece_at b target = none then
      target ::
        (if ¬has_moved then
          match Square.new src.file (toU8 ((src.rank : Int) + 2 * pawnDir c)) with
          | some two_sq => if piece_at b two_sq = none then [two_sq] else []
          | none => []
        else [])
    else []
  | none => []

/-- The capture block of `Board::pawn_moves` (src/src/board.rs lines
197-210): each of the two diagonal-forward squares when occupied by a
piece of the opposite color. -/
def pawnCaptures (b : Board) (src : Square) (c : Color) : List Square :=
  ([-1, 1] : List Int).foldr
    (fun df acc =>
      (match Square.new (toU8 ((src.file : Int) + df)) (toU8 ((src.rank : Int) + pawnDir c)) with
       | some target =>
         match piece_at b target with
         | some piece => if piece_color piece = some c.opposite then [target] else []
         | none => []
       | none => []) ++ acc)
    []

/-- `Board::pawn_moves` (src/src/board.rs lines 168-213): forward moves
followed by capture moves. -/
def pawn_moves (b : Board) (src : Square) (c : Color) (has_moved : Bool) : List Square :=
  pawnForward b src c has_moved ++ pawnCaptures b src c

theorem pawnDir_cases (c : Color) : pawnDir c = 1 ∨ pawnDir c = -1 := by
  cases c <;> simp [pawnDir]

theorem mem_pawnForward (b : Board) (src : Square) (c : Color) (hm : Bool) (t : Square)
    (hf : src.file ≤ 7) (hr : src.rank ≤ 7) :
    t ∈ pawnForward b src c hm ↔
      ((0 ≤ (src.rank : Int) + pawnDir c ∧ (src.rank : Int) + pawnDir c ≤ 7 ∧
        t = ⟨src.file, ((src.rank : Int) + pawnDir c).toNat⟩ ∧ piece_at b t = none) ∨
       (hm = false ∧
        0 ≤ (src.rank : Int) + 2 * pawnDir c ∧ (src.rank : Int) + 2 * pawnDir c ≤ 7 ∧
        t = ⟨src.file, ((src.rank : Int) + 2 * pawnDir c).toNat⟩ ∧
        0 ≤ (src.rank : Int) + pawnDir c ∧ (src.rank : Int) + pawnDir c ≤ 7 ∧
        piece_at b ⟨src.file, ((src.rank : Int) + pawnDir c).toNat⟩ = none ∧
        piece_at b t = none)) := by
  have hd := pawnDir_cases c
  unfold pawnForward
  by_cases h1 : 0 ≤ (src.rank : Int) + pawnDir c ∧ (src.rank : Int) + pawnDir c ≤ 7
  · have hu1 : toU8 ((src.rank : Int) + pawnDir c) = ((src.rank : Int) + pawnDir c).toNat := by
      unfold toU8
      rcases hd with h | h <;> omega
    have hsome : Square.new src.file (toU8 ((src.rank : Int) + pawnDir c))
        = some ⟨src.file, ((src.rank : Int) + pawnDir c).toNat⟩ := by
      rw [hu1]
      exact Square.new_eq_some.mpr ⟨hf, by omega, rfl⟩
    simp only [hsome]
    by_cases h2 : piece_at b (⟨src.file, ((src.rank : Int) + pawnDir c).toNat⟩ : Square) = none
    · rw [if_pos h2]
      simp only [List.mem_cons]
      by_cases hhm : hm = true
      · rw [if_neg (not_not_intro hhm)]
        simp only [List.not_mem_nil, or_false]
        constructor
        · intro h3
          refine Or.inl ⟨h1.1, h1.2, h3, ?_⟩
          rw [h3]
          exact h2
        · rintro (⟨-, -, h3, -⟩ | ⟨h3, -⟩)
          · exact h3
          · rw [hhm] at h3
            exact Bool.noConfusion h3
      · rw [if_pos hhm]
        have hmf : hm = false := by
          cases hm
          · rfl
          · exact absurd rfl hhm
        by_cases h3 : 0 ≤ (src.rank : Int) + 2 * pawnDir c ∧ (src.rank : Int) + 2 * pawnDir c ≤ 7
        · have hu2 : toU8 ((src.rank : Int) + 2 * pawnDir c)
              = ((src.rank : Int) + 2 * pawnDir c).toNat := by
            unfold toU8
            rcases hd with h | h <;> omega
          have hsome2 : Square.new src.file (toU8 ((src.rank : Int) + 2 * pawnDir c))
              = some ⟨src.file, ((src.rank : Int) + 2 * pawnDir c).toNat⟩ := by
            rw [hu2]
            exact Square.new_eq_some.mpr ⟨hf, by omega, rfl⟩
          simp only [hsome2]
          by_cases h4 : piece_at b
              (⟨src.file, ((src.rank : Int) + 2 * pawnDir c).toNat⟩ : Square) = none
          · rw [if_pos h4]
            simp only [List.mem_singleton]
            constructor
            · rintro (h5 | h5)
              · refine Or.inl ⟨h1.1, h1.2, h5, ?_⟩
                rw [h5]
                exact h2
              · refine Or.inr ⟨hmf, h3.1, h3.2, h5, h1.1, h1.2, h2, ?_⟩
                rw [h5]
                exact h4
            · rintro (⟨-, -, h5, -⟩ | ⟨-, -, -, h5, -⟩)
              · exact Or.inl h5
              · exact Or.inr h5
          · rw [if_neg h4]
            simp only [List.not_mem_nil, or_false]
            constructor
            · intro h5
              refine Or.inl ⟨h1.1, h1.2, h5, ?_⟩
              rw [h5]
              exact h2
            · rintro (⟨-, -, h5, -⟩ | ⟨-, -, -, h5, -, -, -, h6⟩)
              · exact h5
              · rw [h5] at h6
                exact absurd h6 h4
        · have hnone2 : Square.new src.file (toU8 ((src.rank : Int) + 2 * pawnDir c)) = none := by
            rw [Square.new_eq_none]
            unfold toU8
            rcases hd with h | h <;> omega
          simp only [hnone2]
          simp only [List.not_mem_nil, or_false]
          constructor
          · intro h5
            refine Or.inl ⟨h1.1, h1.2, h5, ?_⟩
            rw [h5]
            exact h2
          · rintro (⟨-, -, h5, -⟩ | ⟨-, hA, hB, -⟩)
            · exact h5
            · exact absurd ⟨hA, hB⟩ h3
    · rw [if_neg h2]
      simp only [List.not_mem_nil, false_iff]
      rintro (⟨-, -, h5, h6⟩ | ⟨-, -, -, -, -, -, h6, -⟩)
      · rw [h5] at h6
        exact h2 h6
      · exact h2 h6
  · have hnone : Square.new src.file (toU8 ((src.rank : Int) + pawnDir c)) = none := by
      rw [Square.new_eq_none]
      unfold toU8
      rcases hd with h | h <;> omega
    simp only [hnone]
    simp only [List.not_mem_nil, false_iff]
    rintro (⟨hA, hB, -⟩ | ⟨-, -, -, -, hA, hB, -⟩) <;> exact h1 ⟨hA, hB⟩

theorem mem_pawnCaptureAt (b : Board) (src : Square) (c : Color) (df : Int) (t : Square)
    (hdf : df = -1 ∨ df = 1) (hf : src.file ≤ 7) (hr : src.rank ≤ 7) :
    (t ∈ match Square.new (toU8 ((src.file : Int) + df)) (toU8 ((src.rank : Int) + pawnDir c)) with
         | some target =>
           match piece_at b target with
           | some piece => if piece_color piece = some c.opposite then [target] else []
           | none => []
         | none => []) ↔
      (0 ≤ (src.file : Int) + df ∧ (src.file : Int) + df ≤ 7 ∧
       0 ≤ (src.rank : Int) + pawnDir c ∧ (src.rank : Int) + pawnDir c ≤ 7 ∧
       t = ⟨((src.file : Int) + df).toNat, ((src.rank : Int) + pawnDir c).toNat⟩ ∧
       ∃ p, piece_at b t = some p ∧ piece_color p = some c.opposite) := by
  have hd := pawnDir_cases c
  by_cases hb : 0 ≤ (src.file : Int) + df ∧ (src.file : Int) + df ≤ 7 ∧
      0 ≤ (src.rank : Int) + pawnDir c ∧ (src.rank : Int) + pawnDir c ≤ 7
  · have hu1 : toU8 ((src.file : Int) + df) = ((src.file : Int) + df).toNat := by
      unfold toU8
      rcases hdf with h | h <;> omega
    have hu2 : toU8 ((src.rank : Int) + pawnDir c) = ((src.rank : Int) + pawnDir c).toNat := by
      unfold toU8
      rcases hd with h | h <;> omega
    have hsome : Square.new (toU8 ((src.file : Int) + df)) (toU8 ((src.rank : Int) + pawnDir c))
        = some ⟨((src.file : Int) + df).toNat, ((src.rank : Int) + pawnDir c).toNat⟩ := by
      rw [hu1, hu2]
      exact Square.new_eq_some.mpr ⟨by omega, by omega, rfl⟩
    simp only [hsome]
    cases hp : piece_at b
        (⟨((src.file : Int) + df).toNat, ((src.rank : Int) + pawnDir c).toNat⟩ : Square) with
    | none =>
      simp only [List.not_mem_nil, false_iff]
      rintro ⟨-, -, -, -, h5, p, h6, -⟩
      rw [h5, hp] at h6
      exact Option.noConfusion h6
    | some piece =>
      by_cases hcol : piece_color piece = some c.opposite
      · simp only [if_pos hcol, List.mem_singleton]
        constructor
        · intro h5
          refine ⟨hb.1, hb.2.1, hb.2.2.1, hb.2.2.2, h5, piece, ?_, hcol⟩
          rw [h5]
          exact hp
        · rintro ⟨-, -, -, -, h5, -⟩
          exact h5
      · simp only [if_neg hcol, List.not_mem_nil, false_iff]
        rintro ⟨-, -, -, -, h5, p, h6, h7⟩
        rw [h5, hp] at h6
        rw [Option.some.inj h6] at hcol
        exact hcol h7
  · have hnone : Square.new (toU8 ((src.file : Int) + df))
        (toU8 ((src.rank : Int) + pawnDir c)) = none := by
      rw [Square.new_eq_none]
      unfold toU8
      rcases hdf with h | h <;> rcases hd with h2 | h2 <;> omega
    simp only [hnone, List.not_mem_nil, false_iff]
    rintro ⟨hA, hB, hC, hD, -⟩
    exact hb ⟨hA, hB, hC, hD⟩

theorem mem_pawnCaptures (b : Board) (src : Square) (c : Color) (t : Square)
    (hf : src.file ≤ 7) (hr : src.rank ≤ 7) :
    t ∈ pawnCaptures b src c ↔
      ∃ df : Int, (df = -1 ∨ df = 1) ∧
        0 ≤ (src.file : Int) + df ∧ (src.file : Int) + df ≤ 7 ∧
        0 ≤ (src.rank : Int) + pawnDir c ∧ (src.rank : Int) + pawnDir c ≤ 7 ∧
        t = ⟨((src.file : Int) + df).toNat, ((src.rank : Int) + pawnDir c).toNat⟩ ∧
        ∃ p, piece_at b t = some p ∧ piece_color p = some c.opposite := by
  unfold pawnCaptures
  simp only [List.foldr_cons, List.foldr_nil, List.append_nil, List.mem_append]
  rw [mem_pawnCaptureAt b src c (-1) t (Or.inl rfl) hf hr,
      mem_pawnCaptureAt b src c 1 t (Or.inr rfl) hf hr]
  constructor
  · rintro (h | h)
    · exact ⟨-1, Or.inl rfl, h⟩
    · exact ⟨1, Or.inr rfl, h⟩
  · rintro ⟨df, hdf | hdf, h⟩
    · subst hdf
      exact Or.inl h
    · subst hdf
      exact Or.inr h

/-- C5: for an on-board pawn square, `pawn_moves` returns exactly the
one-step-ahead square (rank +1 for White, -1 for Black) when on-board and
unoccupied; additionally the two-step square when the has-moved flag is
false and both the one-ahead and two-ahead squares are on-board and
unoccupied; and each diagonal-forward square when on-board and occupied by
a piece of the opposite color — and no other squares. -/
theorem pawn_moves_spec (b : Board) (src : Square) (c : Color) (hm : Bool) (t : Square)
    (hf : src.file ≤ 7) (hr : src.rank ≤ 7) :
    t ∈ pawn_moves b src c hm ↔
      ((0 ≤ (src.rank : Int) + pawnDir c ∧ (src.rank : Int) + pawnDir c ≤ 7 ∧
        t = ⟨src.file, ((src.rank : Int) + pawnDir c).toNat⟩ ∧ piece_at b t = none) ∨
       (hm = false ∧
        0 ≤ (src.rank : Int) + 2 * pawnDir c ∧ (src.rank : Int) + 2 * pawnDir c ≤ 7 ∧
        t = ⟨src.file, ((src.rank : Int) + 2 * pawnDir c).toNat⟩ ∧
        0 ≤ (src.rank : Int) + pawnDir c ∧ (src.rank : Int) + pawnDir c ≤ 7 ∧
        piece_at b ⟨src.file, ((src.rank : Int) + pawnDir c).toNat⟩ = none ∧
        piece_at b t = none) ∨
       (∃ df : Int, (df = -1 ∨ df = 1) ∧
        0 ≤ (src.file : Int) + df ∧ (src.file : Int) + df ≤ 7 ∧
        0 ≤ (src.rank : Int) + pawnDir c ∧ (src.rank : Int) + pawnDir c ≤ 7 ∧
        t = ⟨((src.file : Int) + df).toNat, ((src.rank : Int) + pawnDir c).toNat⟩ ∧
        ∃ p, piece_at b t = some p ∧ piece_color p = some c.opposite)) := by
  rw [pawn_moves, List.mem_append, mem_pawnForward b src c hm t hf hr,
      mem_pawnCaptures b src c t hf hr, or_assoc]

/-- C5 witness: a white pawn on e2 of the empty board may advance to e3. -/
theorem pawn_moves_spec_witness :
    (⟨4, 2⟩ : Square) ∈ pawn_moves (mkBoard []) ⟨4, 1⟩ Color.White false :=
  (pawn_moves_spec (mkBoard []) ⟨4, 1⟩ Color.White false ⟨4, 2⟩ (by decide) (by decide)).mpr
    (Or.inl (by decide))

/-- One ray of `Board::sliding_piece_moves` (src/src/board.rs lines
135-161): the inner loop, walking from (file, rank) in direction (df, dr)
and collecting pushed squares.  The explicit fuel argument stands for the
number of loop iterations still allowed — the Rust loop has no such bound,
and the termination theorems determine when the result is fuel-independent.
i32 addition is modelled with `wrap32`, and the `as u8` casts in the
`Square::new` call with `toU8`. -/
def slideLoop (b : Board) (c : Color) (df dr : Int) : Int → Int → Nat → List Square
  | _, _, 0 => []
  | file, rank, fuel + 1 =>
    let file2 := wrap32 (file + df)
    let rank2 := wrap32 (rank + dr)
    if file2 < 0 ∨ file2 > 7 ∨ rank2 < 0 ∨ rank2 > 7 then []
    else
      match Square.new (toU8 file2) (toU8 rank2) with
      | none => slideLoop b c df dr file2 rank2 fuel
      | some target =>
        if is_empty_or_capturable b target c then
          target ::
            (match piece_at b target with
             | some piece =>
               if piece_color piece ≠ some c then []
               else slideLoop b c df dr file2 rank2 fuel
             | none => slideLoop b c df dr file2 rank2 fuel)
        else []

/-- Companion to `slideLoop`: whether the ray loop reaches one of its
`break` statements within the given number of iterations.  When it does,
the collected moves are independent of any further fuel. -/
def slideDone (b : Board) (c : Color) (df dr : Int) : Int → Int → Nat → Bool
  | _, _, 0 => false
  | file, rank, fuel + 1 =>
    let file2 := wrap32 (file + df)
    let rank2 := wrap32 (rank + dr)
    if file2 < 0 ∨ file2 > 7 ∨ rank2 < 0 ∨ rank2 > 7 then true
    else
      match Square.new (toU8 file2) (toU8 rank2) with
      | none => slideDone b c df dr file2 rank2 fuel
      | some target =>
        if is_empty_or_capturable b target c then
          (match piece_at b target with
           | some piece =>
             if piece_color piece ≠ some c then true
             else slideDone b c df dr file2 rank2 fuel
           | none => slideDone b c df dr file2 rank2 fuel)
        else true

/-- `Board::sliding_piece_moves` with an explicit per-ray iteration
budget: the concatenation, in direction order, of each ray loop. -/
def sliding_moves_fuel (b : Board) (src : Square) (c : Color) :
    List (Int × Int) → Nat → List Square
  | [], _ => []
  | d :: rest, fuel =>
    slideLoop b c d.1 d.2 (src.file : Int) (src.rank : Int) fuel
      ++ sliding_moves_fuel b src c rest fuel

/-- `Board::sliding_piece_moves` (src/src/board.rs lines 127-165).  Fuel 9
is enough for every direction with a nonzero offset (see the termination
theorem), and all callers (Queen, Rook, Bishop) pass only unit
directions. -/
def sliding_piece_moves (b : Board) (src : Square) (c : Color)
    (dirs : List (Int × Int)) : List Square :=
  sliding_moves_fuel b src c dirs 9

theorem slideLoop_step_off (b : Board) (c : Color) (df dr f r : Int) (n : Nat)
    (hoff : wrap32 (f + df) < 0 ∨ wrap32 (f + df) > 7 ∨
            wrap32 (r + dr) < 0 ∨ wrap32 (r + dr) > 7) :
    slideLoop b c df dr f r (n + 1) = [] := by
  simp only [slideLoop]
  rw [if_pos hoff]

theorem slideDone_step_off (b : Board) (c : Color) (df dr f r : Int) (n : Nat)
    (hoff : wrap32 (f + df) < 0 ∨ wrap32 (f + df) > 7 ∨
            wrap32 (r + dr) < 0 ∨ wrap32 (r + dr) > 7) :
    slideDone b c df dr f r (n + 1) = true := by
  simp only [slideDone]
  rw [if_pos hoff]

theorem slide_new_eq_some {f2 r2 : Int} (h1 : 0 ≤ f2) (h2 : f2 ≤ 7) (h3 : 0 ≤ r2)
    (h4 : r2 ≤ 7) :
    Square.new (toU8 f2) (toU8 r2) = some ⟨f2.toNat, r2.toNat⟩ := by
  have hu1 : toU8 f2 = f2.toNat := by
    unfold toU8
    omega
  have hu2 : toU8 r2 = r2.toNat := by
    unfold toU8
    omega
  rw [hu1, hu2]
  exact Square.new_eq_some.mpr ⟨by omega, by omega, rfl⟩

theorem slideLoop_step_empty (b : Board) (c : Color) (df dr f r f2 r2 : Int) (n : Nat)
    (hf2 : wrap32 (f + df) = f2) (hr2 : wrap32 (r + dr) = r2)
    (hon : 0 ≤ f2 ∧ f2 ≤ 7 ∧ 0 ≤ r2 ∧ r2 ≤ 7)
    (hemp : piece_at b ⟨f2.toNat, r2.toNat⟩ = none) :
    slideLoop b c df dr f r (n + 1)
      = ⟨f2.toNat, r2.toNat⟩ :: slideLoop b c df dr f2 r2 n := by
  subst hf2
  subst hr2
  obtain ⟨h1, h2, h3, h4⟩ := hon
  have hnot : ¬(wrap32 (f + df) < 0 ∨ wrap32 (f + df) > 7 ∨
      wrap32 (r + dr) < 0 ∨ wrap32 (r + dr) > 7) := by omega
  have hsq := slide_new_eq_some h1 h2 h3 h4
  have hcap : is_empty_or_capturable b
      ⟨(wrap32 (f + df)).toNat, (wrap32 (r + dr)).toNat⟩ c = true := by
    simp [is_empty_or_capturable, hemp]
  simp only [slideLoop, if_neg hnot, hsq, hcap, if_true, eq_self_iff_true, hemp]

theorem slideDone_step_empty (b : Board) (c : Color) (df dr f r f2 r2 : Int) (n : Nat)
    (hf2 : wrap32 (f + df) = f2) (hr2 : wrap32 (r + dr) = r2)
    (hon : 0 ≤ f2 ∧ f2 ≤ 7 ∧ 0 ≤ r2 ∧ r2 ≤ 7)
    (hemp : piece_at b ⟨f2.toNat, r2.toNat⟩ = none) :
    slideDone b c df dr f r (n + 1) = slideDone b c df dr f2 r2 n := by
  subst hf2
  subst hr2
  obtain ⟨h1, h2, h3, h4⟩ := hon
  have hnot : ¬(wrap32 (f + df) < 0 ∨ wrap32 (f + df) > 7 ∨
      wrap32 (r + dr) < 0 ∨ wrap32 (r + dr) > 7) := by omega
  have hsq := slide_new_eq_some h1 h2 h3 h4
  have hcap : is_empty_or_capturable b
      ⟨(wrap32 (f + df)).toNat, (wrap32 (r + dr)).toNat⟩ c = true := by
    simp [is_empty_or_capturable, hemp]
  simp only [slideDone, if_neg hnot, hsq, hcap, if_true, eq_self_iff_true, hemp]

theorem slideLoop_step_opp (b : Board) (c : Color) (df dr f r f2 r2 : Int) (n : Nat)
    (hf2 : wrap32 (f + df) = f2) (hr2 : wrap32 (r + dr) = r2)
    (hon : 0 ≤ f2 ∧ f2 ≤ 7 ∧ 0 ≤ r2 ∧ r2 ≤ 7) (p : ProtoPiece)
    (hp : piece_at b ⟨f2.toNat, r2.toNat⟩ = some p) (hc : piece_color p ≠ some c) :
    slideLoop b c df dr f r (n + 1) = [⟨f2.toNat, r2.toNat⟩] := by
  subst hf2
  subst hr2
  obtain ⟨h1, h2, h3, h4⟩ := hon
  have hnot : ¬(wrap32 (f + df) < 0 ∨ wrap32 (f + df) > 7 ∨
      wrap32 (r + dr) < 0 ∨ wrap32 (r + dr) > 7) := by omega
  have hsq := slide_new_eq_some h1 h2 h3 h4
  have hcap : is_empty_or_capturable b
      ⟨(wrap32 (f + df)).toNat, (wrap32 (r + dr)).toNat⟩ c = true := by
    simp only [is_empty_or_capturable, hp]
    exact bne_iff_ne.mpr hc
  simp only [slideLoop, if_neg hnot, hsq, hcap, if_true, eq_self_iff_true, hp, if_pos hc]

theorem slideDone_step_opp (b : Board) (c : Color) (df dr f r f2 r2 : Int) (n : Nat)
    (hf2 : wrap32 (f + df) = f2) (hr2 : wrap32 (r + dr) = r2)
    (hon : 0 ≤ f2 ∧ f2 ≤ 7 ∧ 0 ≤ r2 ∧ r2 ≤ 7) (p : ProtoPiece)
    (hp : piece_at b ⟨f2.toNat, r2.toNat⟩ = some p) (hc : piece_color p ≠ some c) :
    slideDone b c df dr f r (n + 1) = true := by
  subst hf2
  subst hr2
  obtain ⟨h1, h2, h3, h4⟩ := hon
  have hnot : ¬(wrap32 (f + df) < 0 ∨ wrap32 (f + df) > 7 ∨
      wrap32 (r + dr) < 0 ∨ wrap32 (r + dr) > 7) := by omega
  have hsq := slide_new_eq_some h1 h2 h3 h4
  have hcap : is_empty_or_capturable b
      ⟨(wrap32 (f + df)).toNat, (wrap32 (r + dr)).toNat⟩ c = true := by
    simp only [is_empty_or_capturable, hp]
    exact bne_iff_ne.mpr hc
  simp only [slideDone, if_neg hnot, hsq, hcap, if_true, eq_self_iff_true, hp, if_pos hc]

theorem slideLoop_step_own (b : Board) (c : Color) (df dr f r f2 r2 : Int) (n : Nat)
    (hf2 : wrap32 (f + df) = f2) (hr2 : wrap32 (r + dr) = r2)
    (hon : 0 ≤ f2 ∧ f2 ≤ 7 ∧ 0 ≤ r2 ∧ r2 ≤ 7) (p : ProtoPiece)
    (hp : piece_at b ⟨f2.toNat, r2.toNat⟩ = some p) (hc : piece_color p = some c) :
    slideLoop b c df dr f r (n + 1) = [] := by
  subst hf2
  subst hr2
  obtain ⟨h1, h2, h3, h4⟩ := hon
  have hnot : ¬(wrap32 (f + df) < 0 ∨ wrap32 (f + df) > 7 ∨
      wrap32 (r + dr) < 0 ∨ wrap32 (r + dr) > 7) := by omega
  have hsq := slide_new_eq_some h1 h2 h3 h4
  have hcap : is_empty_or_capturable b
      ⟨(wrap32 (f + df)).toNat, (wrap32 (r + dr)).toNat⟩ c = false := by
    simp only [is_empty_or_capturable, hp, hc]
    simp
  simp only [slideLoop, if_neg hnot, hsq, hcap, Bool.false_eq_true, if_false]

theorem slideDone_step_own (b : Board) (c : Color) (df dr f r f2 r2 : Int) (n : Nat)
    (hf2 : wrap32 (f + df) = f2) (hr2 : wrap32 (r + dr) = r2)
    (hon : 0 ≤ f2 ∧ f2 ≤ 7 ∧ 0 ≤ r2 ∧ r2 ≤ 7) (p : ProtoPiece)
    (hp : piece_at b ⟨f2.toNat, r2.toNat⟩ = some p) (hc : piece_color p = some c) :
    slideDone b c df dr f r (n + 1) = true := by
  subst hf2
  subst hr2
  obtain ⟨h1, h2, h3, h4⟩ := hon
  have hnot : ¬(wrap32 (f + df) < 0 ∨ wrap32 (f + df) > 7 ∨
      wrap32 (r + dr) < 0 ∨ wrap32 (r + dr) > 7) := by omega
  have hsq := slide_new_eq_some h1 h2 h3 h4
  have hcap : is_empty_or_capturable b
      ⟨(wrap32 (f + df)).toNat, (wrap32 (r + dr)).toNat⟩ c = false := by
    simp only [is_empty_or_capturable, hp, hc]
    simp
  simp only [slideDone, if_neg hnot, hsq, hcap, Bool.false_eq_true, if_false]

theorem slideDone_succ (b : Board) (c : Color) (df dr f r : Int) (n : Nat)
    (h : slideDone b c df dr (wrap32 (f + df)) (wrap32 (r + dr)) n = true) :
    slideDone b c df dr f r (n + 1) = true := by
  by_cases hoff : wrap32 (f + df) < 0 ∨ wrap32 (f + df) > 7 ∨
      wrap32 (r + dr) < 0 ∨ wrap32 (r + dr) > 7
  · exact slideDone_step_off b c df dr f r n hoff
  · push_neg at hoff
    obtain ⟨h1, h2, h3, h4⟩ := hoff
    cases hp : piece_at b (⟨(wrap32 (f + df)).toNat, (wrap32 (r + dr)).toNat⟩ : Square) with
    | none =>
      rw [slideDone_step_empty b c df dr f r _ _ n rfl rfl ⟨h1, by omega, h3, by omega⟩ hp]
      exact h
    | some p =>
      by_cases hcol : piece_color p = some c
      · exact slideDone_step_own b c df dr f r _ _ n rfl rfl
          ⟨h1, by omega, h3, by omega⟩ p hp hcol
      · exact slideDone_step_opp b c df dr f r _ _ n rfl rfl
          ⟨h1, by omega, h3, by omega⟩ p hp hcol

theorem slideLoop_stable_of_done (b : Board) (c : Color) (df dr : Int) :
    ∀ (n : Nat) (f r : Int), slideDone b c df dr f r n = true →
      ∀ m : Nat, n ≤ m → slideLoop b c df dr f r m = slideLoop b c df dr f r n := by
  intro n
  induction n with
  | zero =>
    intro f r hdone m hm
    exact absurd hdone (by simp [slideDone])
  | succ n ih =>
    intro f r hdone m hm
    obtain ⟨m2, rfl⟩ : ∃ m2, m = m2 + 1 := ⟨m - 1, by omega⟩
    have hm2 : n ≤ m2 := by omega
    by_cases hoff : wrap32 (f + df) < 0 ∨ wrap32 (f + df) > 7 ∨
        wrap32 (r + dr) < 0 ∨ wrap32 (r + dr) > 7
    · rw [slideLoop_step_off b c df dr f r m2 hoff, slideLoop_step_off b c df dr f r n hoff]
    · push_neg at hoff
      obtain ⟨h1, h2, h3, h4⟩ := hoff
      have hon : 0 ≤ wrap32 (f + df) ∧ wrap32 (f + df) ≤ 7 ∧
          0 ≤ wrap32 (r + dr) ∧ wrap32 (r + dr) ≤ 7 := ⟨h1, by omega, h3, by omega⟩
      cases hp : piece_at b (⟨(wrap32 (f + df)).toNat, (wrap32 (r + dr)).toNat⟩ : Square) with
      | none =>
        rw [slideLoop_step_empty b c df dr f r _ _ m2 rfl rfl hon hp,
            slideLoop_step_empty b c df dr f r _ _ n rfl rfl hon hp]
        have hdone2 : slideDone b c df dr (wrap32 (f + df)) (wrap32 (r + dr)) n = true := by
          rw [← slideDone_step_empty b c df dr f r _ _ n rfl rfl hon hp]
          exact hdone
        rw [ih _ _ hdone2 m2 hm2]
      | some p =>
        by_cases hcol : piece_color p = some c
        · rw [slideLoop_step_own b c df dr f r _ _ m2 rfl rfl hon p hp hcol,
              slideLoop_step_own b c df dr f r _ _ n rfl rfl hon p hp hcol]
        · rw [slideLoop_step_opp b c df dr f r _ _ m2 rfl rfl hon p hp hcol,
              slideLoop_step_opp b c df dr f r _ _ n rfl rfl hon p hp hcol]

theorem slideDone_of_escape (b : Board) (c : Color) (df dr : Int)
    (hdf7 : -7 ≤ df ∧ df ≤ 7) (hdr7 : -7 ≤ dr ∧ dr ≤ 7) :
    ∀ (n : Nat) (f r : Int), -300 ≤ f → f ≤ 300 → -300 ≤ r → r ≤ 300 →
      (∃ k : Nat, k < n ∧
        (f + ((k : Int) + 1) * df < 0 ∨ 7 < f + ((k : Int) + 1) * df ∨
         r + ((k : Int) + 1) * dr < 0 ∨ 7 < r + ((k : Int) + 1) * dr)) →
      slideDone b c df dr f r n = true := by
  intro n
  induction n with
  | zero =>
    rintro f r _ _ _ _ ⟨k, hk, -⟩
    omega
  | succ n ih =>
    rintro f r hf1 hf2 hr1 hr2 ⟨k, hk, hesc⟩
    have hw1 : wrap32 (f + df) = f + df := by
      unfold wrap32
      omega
    have hw2 : wrap32 (r + dr) = r + dr := by
      unfold wrap32
      omega
    by_cases hoff : wrap32 (f + df) < 0 ∨ wrap32 (f + df) > 7 ∨
        wrap32 (r + dr) < 0 ∨ wrap32 (r + dr) > 7
    · exact slideDone_step_off b c df dr f r n hoff
    · push_neg at hoff
      obtain ⟨h1, h2, h3, h4⟩ := hoff
      rw [hw1] at h1 h2
      rw [hw2] at h3 h4
      have hk0 : k ≠ 0 := by
        rintro rfl
        have e0 : ((0 : Nat) : Int) + 1 = 1 := by norm_num
        rw [e0, one_mul, one_mul] at hesc
        omega
      obtain ⟨k2, rfl⟩ : ∃ k2, k = k2 + 1 := ⟨k - 1, by omega⟩
      apply slideDone_succ
      rw [hw1, hw2]
      apply ih (f + df) (r + dr) (by omega) (by omega) (by omega) (by omega)
      refine ⟨k2, by omega, ?_⟩
      have e1 : f + df + ((k2 : Int) + 1) * df = f + (((k2 + 1 : Nat) : Int) + 1) * df := by
        push_cast
        ring
      have e2 : r + dr + ((k2 : Int) + 1) * dr = r + (((k2 + 1 : Nat) : Int) + 1) * dr := by
        push_cast
        ring
      rw [e1, e2]
      exact hesc

theorem slideDone_escape (b : Board) (c : Color) (df dr f r : Int)
    (hf0 : 0 ≤ f) (hf : f ≤ 255) (hr0 : 0 ≤ r) (hrr : r ≤ 255)
    (hdf1 : -(2 ^ 31) ≤ df) (hdf2 : df < 2 ^ 31)
    (hdr1 : -(2 ^ 31) ≤ dr) (hdr2 : dr < 2 ^ 31)
    (hne : ¬(df = 0 ∧ dr = 0)) :
    slideDone b c df dr f r 9 = true := by
  by_cases hoff1 : wrap32 (f + df) < 0 ∨ wrap32 (f + df) > 7 ∨
      wrap32 (r + dr) < 0 ∨ wrap32 (r + dr) > 7
  · exact slideDone_step_off b c df dr f r 8 hoff1
  · push_neg at hoff1
    obtain ⟨h1, h2, h3, h4⟩ := hoff1
    by_cases hbig : df < -7 ∨ 7 < df ∨ dr < -7 ∨ 7 < dr
    · apply slideDone_succ
      apply slideDone_step_off
      unfold wrap32 at h1 h2 h3 h4 ⊢
      omega
    · push_neg at hbig
      obtain ⟨hb1, hb2, hb3, hb4⟩ := hbig
      apply slideDone_succ
      apply slideDone_of_escape b c df dr ⟨hb1, hb2⟩ ⟨hb3, hb4⟩ 8 _ _
        (by omega) (by omega) (by omega) (by omega)
      refine ⟨7, by omega, ?_⟩
      have e0 : ((7 : Nat) : Int) + 1 = 8 := by norm_num
      rw [e0]
      omega

/-- C4 counterexample: passing the direction offset (0,0) with an empty
starting square makes the ray loop of `sliding_piece_moves` run forever —
the position never changes, the square is empty, and no break is reached,
so the collected moves keep growing with the iteration budget and no
amount of fuel stabilizes the result.  Concretely: empty board, White,
direction (0,0), starting square (4,4). -/
theorem sliding_zero_direction_diverges :
    ¬ ∃ N : Nat, ∀ m : Nat, N ≤ m →
        slideLoop (mkBoard []) Color.White 0 0 4 4 m
          = slideLoop (mkBoard []) Color.White 0 0 4 4 N := by
  have hstep : ∀ n : Nat, slideLoop (mkBoard []) Color.White 0 0 4 4 (n + 1)
      = ⟨4, 4⟩ :: slideLoop (mkBoard []) Color.White 0 0 4 4 n := by
    intro n
    have hw : wrap32 (4 + 0) = 4 := by
      unfold wrap32
      norm_num
    have hemp : piece_at (mkBoard []) (⟨(4 : Int).toNat, (4 : Int).toNat⟩ : Square) = none := by
      rfl
    have h := slideLoop_step_empty (mkBoard []) Color.White 0 0 4 4 4 4 n hw hw
      (by norm_num) hemp
    simpa using h
  have hlen : ∀ n : Nat, (slideLoop (mkBoard []) Color.White 0 0 4 4 n).length = n := by
    intro n
    induction n with
    | zero => simp [slideLoop]
    | succ n ih => rw [hstep n, List.length_cons, ih]
  rintro ⟨N, hN⟩
  have h1 := congrArg List.length (hN (N + 1) (Nat.le_succ N))
  rw [hlen, hlen] at h1
  omega

/-- C4 amended: every public operation of the core terminates; the one
loop without a structural bound, the ray walk of `sliding_piece_moves`,
terminates for every board index, starting square, color and direction
list provided no direction offset equals (0,0) — with fuel 9 per ray the
result is already stable, so the Rust loop reaches a break.  (With a (0,0)
offset over an empty square it never breaks; see the counterexample.) -/
theorem sliding_terminates_amended (b : Board) (src : Square) (c : Color)
    (dirs : List (Int × Int)) (hf : src.file ≤ 255) (hr : src.rank ≤ 255)
    (hd : ∀ d ∈ dirs, ¬(d.1 = 0 ∧ d.2 = 0) ∧
      -(2 ^ 31) ≤ d.1 ∧ d.1 < 2 ^ 31 ∧ -(2 ^ 31) ≤ d.2 ∧ d.2 < 2 ^ 31) :
    ∀ m : Nat, 9 ≤ m →
      sliding_moves_fuel b src c dirs m = sliding_piece_moves b src c dirs := by
  intro m hm
  rw [sliding_piece_moves]
  revert hd
  induction dirs with
  | nil =>
    intro _
    simp [sliding_moves_fuel]
  | cons d rest ih =>
    intro hd
    obtain ⟨hne, h1, h2, h3, h4⟩ := hd d (List.mem_cons_self d rest)
    have hdone := slideDone_escape b c d.1 d.2 (src.file : Int) (src.rank : Int)
      (by omega) (by exact_mod_cast hf) (by omega) (by exact_mod_cast hr)
      h1 h2 h3 h4 hne
    simp only [sliding_moves_fuel]
    rw [slideLoop_stable_of_done b c d.1 d.2 9 _ _ hdone m hm,
        ih (fun x hx => hd x (List.mem_cons_of_mem d hx))]

/-- C4 witness: with the unit direction (1,1) from a1 the slide already
stabilizes at fuel 9 — here applied at fuel 10 on the empty board. -/
theorem sliding_terminates_witness :
    sliding_moves_fuel (mkBoard []) ⟨0, 0⟩ Color.White [(1, 1)] 10
      = sliding_piece_moves (mkBoard []) ⟨0, 0⟩ Color.White [(1, 1)] :=
  sliding_terminates_amended (mkBoard []) ⟨0, 0⟩ Color.White [(1, 1)]
    (by decide) (by decide) (by decide) 10 (by decide)

theorem slideLoop_empty_prefix (b : Board) (c : Color) (df dr : Int)
    (hdf : df = -1 ∨ df = 0 ∨ df = 1) (hdr : dr = -1 ∨ dr = 0 ∨ dr = 1) :
    ∀ (m rest : Nat) (f r : Int), 0 ≤ f → f ≤ 7 → 0 ≤ r → r ≤ 7 →
      (∀ j : Nat, j < m →
        0 ≤ f + ((j : Int) + 1) * df ∧ f + ((j : Int) + 1) * df ≤ 7 ∧
        0 ≤ r + ((j : Int) + 1) * dr ∧ r + ((j : Int) + 1) * dr ≤ 7 ∧
        piece_at b ⟨(f + ((j : Int) + 1) * df).toNat, (r + ((j : Int) + 1) * dr).toNat⟩
          = none) →
      slideLoop b c df dr f r (m + rest)
        = (List.range m).map (fun (j : Nat) =>
            (⟨(f + ((j : Int) + 1) * df).toNat, (r + ((j : Int) + 1) * dr).toNat⟩ : Square))
          ++ slideLoop b c df dr (f + (m : Int) * df) (r + (m : Int) * dr) rest := by
  intro m
  induction m with
  | zero =>
    intro rest f r _ _ _ _ _
    simp
  | succ m ih =>
    intro rest f r hf0 hf7 hr0 hr7 hpre
    have h0 := hpre 0 (Nat.succ_pos m)
    have e0f : f + (((0 : Nat) : Int) + 1) * df = f + df := by
      push_cast
      ring
    have e0r : r + (((0 : Nat) : Int) + 1) * dr = r + dr := by
      push_cast
      ring
    rw [e0f, e0r] at h0
    obtain ⟨g1, g2, g3, g4, g5⟩ := h0
    have hw1 : wrap32 (f + df) = f + df := by
      unfold wrap32
      rcases hdf with h | h | h <;> omega
    have hw2 : wrap32 (r + dr) = r + dr := by
      unfold wrap32
      rcases hdr with h | h | h <;> omega
    have hstep := slideLoop_step_empty b c df dr f r (f + df) (r + dr) (m + rest)
      hw1 hw2 ⟨g1, g2, g3, g4⟩ g5
    have hsucc : m + 1 + rest = (m + rest) + 1 := by omega
    rw [hsucc, hstep]
    have hpre2 : ∀ j : Nat, j < m →
        0 ≤ f + df + ((j : Int) + 1) * df ∧ f + df + ((j : Int) + 1) * df ≤ 7 ∧
        0 ≤ r + dr + ((j : Int) + 1) * dr ∧ r + dr + ((j : Int) + 1) * dr ≤ 7 ∧
        piece_at b ⟨(f + df + ((j : Int) + 1) * df).toNat,
          (r + dr + ((j : Int) + 1) * dr).toNat⟩ = none := by
      intro j hj
      have h := hpre (j + 1) (by omega)
      have e1 : f + (((j + 1 : Nat) : Int) + 1) * df = f + df + ((j : Int) + 1) * df := by
        push_cast
        ring
      have e2 : r + (((j + 1 : Nat) : Int) + 1) * dr = r + dr + ((j : Int) + 1) * dr := by
        push_cast
        ring
      rw [e1, e2] at h
      exact h
    rw [ih rest (f + df) (r + dr) (by omega) (by omega) (by omega) (by omega) hpre2]
    have hmap : (List.range (m + 1)).map (fun (j : Nat) =>
          (⟨(f + ((j : Int) + 1) * df).toNat, (r + ((j : Int) + 1) * dr).toNat⟩ : Square))
        = (⟨(f + df).toNat, (r + dr).toNat⟩ : Square)
          :: (List.range m).map (fun (j : Nat) =>
              (⟨(f + df + ((j : Int) + 1) * df).toNat,
                (r + dr + ((j : Int) + 1) * dr).toNat⟩ : Square)) := by
      have htail : ((fun (j : Nat) =>
            (⟨(f + ((j : Int) + 1) * df).toNat, (r + ((j : Int) + 1) * dr).toNat⟩ : Square))
              ∘ Nat.succ)
          = fun (j : Nat) =>
              (⟨(f + df + ((j : Int) + 1) * df).toNat,
                (r + dr + ((j : Int) + 1) * dr).toNat⟩ : Square) := by
        funext j
        simp only [Function.comp_apply]
        have a1 : f + ((Nat.succ j : Int) + 1) * df = f + df + ((j : Int) + 1) * df := by
          push_cast
          ring
        have a2 : r + ((Nat.succ j : Int) + 1) * dr = r + dr + ((j : Int) + 1) * dr := by
          push_cast
          ring
        rw [a1, a2]
      simp only [List.range_succ_eq_map, List.map_cons, List.map_map, Nat.cast_zero,
        zero_add, one_mul]
      rw [htail]
    rw [hmap]
    have ef : f + df + (m : Int) * df = f + ((m + 1 : Nat) : Int) * df := by
      push_cast
      ring
    have er : r + dr + (m : Int) * dr = r + ((m + 1 : Nat) : Int) * dr := by
      push_cast
      ring
    rw [ef, er, List.cons_append]

/-- C1: for a sliding ray in one of the unit directions from an on-board
square, with the squares at distances 1..m along the ray all on-board and
empty: an opponent piece at distance m+1 truncates the ray to exactly the
m+1 squares up to and including the blocker; an own-color piece at
distance m+1 truncates to exactly the m squares strictly before it; and
when distance m+1 is off-board the unblocked ray yields exactly the m
squares from the piece to the board edge.  The moves that
`sliding_piece_moves` returns over a direction list are the concatenation
of its per-direction rays. -/
theorem sliding_ray_first_blocker (b : Board) (src : Square) (c : Color) (df dr : Int)
    (hdf : df = -1 ∨ df = 0 ∨ df = 1) (hdr : dr = -1 ∨ dr = 0 ∨ dr = 1)
    (hne : ¬(df = 0 ∧ dr = 0)) (hf : src.file ≤ 7) (hr : src.rank ≤ 7) :
    (∀ dirs : List (Int × Int),
      sliding_piece_moves b src c dirs
        = dirs.foldr (fun d acc => sliding_piece_moves b src c [d] ++ acc) []) ∧
    (∀ m : Nat,
      (∀ j : Nat, j < m →
        0 ≤ (src.file : Int) + ((j : Int) + 1) * df ∧
        (src.file : Int) + ((j : Int) + 1) * df ≤ 7 ∧
        0 ≤ (src.rank : Int) + ((j : Int) + 1) * dr ∧
        (src.rank : Int) + ((j : Int) + 1) * dr ≤ 7 ∧
        piece_at b ⟨((src.file : Int) + ((j : Int) + 1) * df).toNat,
          ((src.rank : Int) + ((j : Int) + 1) * dr).toNat⟩ = none) →
      ((0 ≤ (src.file : Int) + ((m : Int) + 1) * df ∧
        (src.file : Int) + ((m : Int) + 1) * df ≤ 7 ∧
        0 ≤ (src.rank : Int) + ((m : Int) + 1) * dr ∧
        (src.rank : Int) + ((m : Int) + 1) * dr ≤ 7) →
        ∀ p : ProtoPiece,
          piece_at b ⟨((src.file : Int) + ((m : Int) + 1) * df).toNat,
            ((src.rank : Int) + ((m : Int) + 1) * dr).toNat⟩ = some p →
          (piece_color p ≠ some c →
            sliding_piece_moves b src c [(df, dr)]
              = (List.range (m + 1)).map (fun (j : Nat) =>
                  (⟨((src.file : Int) + ((j : Int) + 1) * df).toNat,
                    ((src.rank : Int) + ((j : Int) + 1) * dr).toNat⟩ : Square))) ∧
          (piece_color p = some c →
            sliding_piece_moves b src c [(df, dr)]
              = (List.range m).map (fun (j : Nat) =>
                  (⟨((src.file : Int) + ((j : Int) + 1) * df).toNat,
                    ((src.rank : Int) + ((j : Int) + 1) * dr).toNat⟩ : Square)))) ∧
      (¬(0 ≤ (src.file : Int) + ((m : Int) + 1) * df ∧
         (src.file : Int) + ((m : Int) + 1) * df ≤ 7 ∧
         0 ≤ (src.rank : Int) + ((m : Int) + 1) * dr ∧
         (src.rank : Int) + ((m : Int) + 1) * dr ≤ 7) →
        sliding_piece_moves b src c [(df, dr)]
          = (List.range m).map (fun (j : Nat) =>
              (⟨((src.file : Int) + ((j : Int) + 1) * df).toNat,
                ((src.rank : Int) + ((j : Int) + 1) * dr).toNat⟩ : Square)))) := by
  constructor
  · intro dirs
    induction dirs with
    | nil => rfl
    | cons d rest ih =>
      rw [List.foldr_cons, ← ih]
      simp only [sliding_piece_moves, sliding_moves_fuel, List.append_nil]
  · intro m hpre
    constructor
    · intro hon p hp
      have hmle : m ≤ 6 := by
        by_contra hgt
        obtain ⟨hA, hB, hC, hD⟩ := hon
        rcases hdf with h | h | h <;> rcases hdr with g | g | g <;>
          (try exact hne ⟨h, g⟩) <;>
            (rw [h] at hA hB) <;> (rw [g] at hC hD) <;> omega
      have hpref := slideLoop_empty_prefix b c df dr hdf hdr m (9 - m)
        (src.file : Int) (src.rank : Int) (by omega) (by omega) (by omega) (by omega) hpre
      have hwf : wrap32 ((src.file : Int) + (m : Int) * df + df)
          = (src.file : Int) + ((m : Int) + 1) * df := by
        have e : (src.file : Int) + (m : Int) * df + df
            = (src.file : Int) + ((m : Int) + 1) * df := by ring
        rw [e]
        unfold wrap32
        omega
      have hwr : wrap32 ((src.rank : Int) + (m : Int) * dr + dr)
          = (src.rank : Int) + ((m : Int) + 1) * dr := by
        have e : (src.rank : Int) + (m : Int) * dr + dr
            = (src.rank : Int) + ((m : Int) + 1) * dr := by ring
        rw [e]
        unfold wrap32
        omega
      constructor
      · intro hcne
        simp only [sliding_piece_moves, sliding_moves_fuel, List.append_nil]
        rw [show (9 : Nat) = m + (9 - m) from by omega, hpref,
            show 9 - m = (8 - m) + 1 from by omega,
            slideLoop_step_opp b c df dr _ _ _ _ (8 - m) hwf hwr hon p hp hcne]
        simp only [List.range_succ, List.map_append, List.map_cons, List.map_nil]
      · intro hceq
        simp only [sliding_piece_moves, sliding_moves_fuel, List.append_nil]
        rw [show (9 : Nat) = m + (9 - m) from by omega, hpref,
            show 9 - m = (8 - m) + 1 from by omega,
            slideLoop_step_own b c df dr _ _ _ _ (8 - m) hwf hwr hon p hp hceq,
            List.append_nil]
    · intro hoff
      have hmle : m ≤ 7 := by
        by_contra hgt
        obtain ⟨hA, hB, hC, hD, -⟩ := hpre 7 (by omega)
        rcases hdf with h | h | h <;> rcases hdr with g | g | g <;>
          (try exact hne ⟨h, g⟩) <;>
            (rw [h] at hA hB) <;> (rw [g] at hC hD) <;> omega
      have hpref := slideLoop_empty_prefix b c df dr hdf hdr m (9 - m)
        (src.file : Int) (src.rank : Int) (by omega) (by omega) (by omega) (by omega) hpre
      have hwf : wrap32 ((src.file : Int) + (m : Int) * df + df)
          = (src.file : Int) + ((m : Int) + 1) * df := by
        have e : (src.file : Int) + (m : Int) * df + df
            = (src.file : Int) + ((m : Int) + 1) * df := by ring
        rw [e]
        unfold wrap32
        rcases hdf with h | h | h <;> rw [h] <;> omega
      have hwr : wrap32 ((src.rank : Int) + (m : Int) * dr + dr)
          = (src.rank : Int) + ((m : Int) + 1) * dr := by
        have e : (src.rank : Int) + (m : Int) * dr + dr
            = (src.rank : Int) + ((m : Int) + 1) * dr := by ring
        rw [e]
        unfold wrap32
        rcases hdr with h | h | h <;> rw [h] <;> omega
      have hoffw : wrap32 ((src.file : Int) + (m : Int) * df + df) < 0 ∨
          wrap32 ((src.file : Int) + (m : Int) * df + df) > 7 ∨
          wrap32 ((src.rank : Int) + (m : Int) * dr + dr) < 0 ∨
          wrap32 ((src.rank : Int) + (m : Int) * dr + dr) > 7 := by
        rw [hwf, hwr]
        omega
      simp only [sliding_piece_moves, sliding_moves_fuel, List.append_nil]
      rw [show (9 : Nat) = m + (9 - m) from by omega, hpref,
          show 9 - m = (8 - m) + 1 from by omega,
          slideLoop_step_off b c df dr _ _ (8 - m) hoffw,
          List.append_nil]

/-- C1 witness: a white rook ray east from a1 on the empty board reaches
exactly the seven squares to the board edge. -/
theorem sliding_ray_first_blocker_witness :
    sliding_piece_moves (mkBoard []) ⟨0, 0⟩ Color.White [(1, 0)]
      = (List.range 7).map (fun (j : Nat) =>
          (⟨(((⟨0, 0⟩ : Square).file : Int) + ((j : Int) + 1) * 1).toNat,
            (((⟨0, 0⟩ : Square).rank : Int) + ((j : Int) + 1) * 0).toNat⟩ : Square)) :=
  ((sliding_ray_first_blocker (mkBoard []) ⟨0, 0⟩ Color.White 1 0
      (by decide) (by decide) (by decide) (by decide) (by decide)).2 7
    (by decide)).2 (by decide)

/-- `King::can_move_to` (src/src/pieces.rs lines 204-209): both absolute
coordinate differences at most one and not both zero (the i32 `abs` is
modelled by `Int.natAbs`). -/
def King.can_move_to (pos target : Square) : Bool :=
  let file_diff := ((pos.file : Int) - (target.file : Int)).natAbs
  let rank_diff := ((pos.rank : Int) - (target.rank : Int)).natAbs
  decide ((file_diff ≤ 1 ∧ rank_diff ≤ 1) ∧ ¬(file_diff = 0 ∧ rank_diff = 0))

/-- `King::valid_moves` (src/src/pieces.rs lines 211-225): scan the whole
board, keeping squares that pass `can_move_to` and
`is_empty_or_capturable`, given the resolved king position and color. -/
def king_valid_moves (b : Board) (pos : Square) (c : Color) : List Square :=
  (List.range 8).foldr
    (fun file acc =>
      (List.range 8).foldr
        (fun rank acc2 =>
          (match Square.new file rank with
           | some target =>
             if King.can_move_to pos target && is_empty_or_capturable b target c
             then [target] else []
           | none => []) ++ acc2)
        [] ++ acc)
    []

/-- `Knight::valid_moves` (src/src/pieces.rs lines 472-493): the eight
L-shaped offsets, cast through u8, kept when constructible and
empty-or-capturable; given the resolved position and color. -/
def knightOffsets : List (Int × Int) :=
  [(2, 1), (2, -1), (-2, 1), (-2, -1), (1, 2), (1, -2), (-1, 2), (-1, -2)]

def knight_valid_moves (b : Board) (pos : Square) (c : Color) : List Square :=
  knightOffsets.foldr
    (fun d acc =>
      (match Square.new (toU8 ((pos.file : Int) + d.1)) (toU8 ((pos.rank : Int) + d.2)) with
       | some target => if is_empty_or_capturable b target c then [target] else []
       | none => []) ++ acc)
    []

/-- Whether a square holds a piece of the given color. -/
def sameColorOccupied (b : Board) (t : Square) (c : Color) : Bool :=
  match piece_at b t with
  | some p => piece_color p == some c
  | none => false

/-- Modelled from the spec (refinement comparison for the king): direct
8-neighbor offset enumeration — include each in-board Chebyshev-distance-1
neighbor that is not occupied by a same-color piece. -/
def kingNeighborOffsets : List (Int × Int) :=
  [(-1, -1), (-1, 0), (-1, 1), (0, -1), (0, 1), (1, -1), (1, 0), (1, 1)]

/-- Modelled from the spec: the king move set by neighbor-offset
enumeration. -/
def king_neighbor_moves (b : Board) (pos : Square) (c : Color) : List Square :=
  kingNeighborOffsets.foldr
    (fun d acc =>
      (if 0 ≤ (pos.file : Int) + d.1 ∧ (pos.file : Int) + d.1 ≤ 7 ∧
          0 ≤ (pos.rank : Int) + d.2 ∧ (pos.rank : Int) + d.2 ≤ 7 then
        (if sameColorOccupied b
            ⟨((pos.file : Int) + d.1).toNat, ((pos.rank : Int) + d.2).toNat⟩ c
         then []
         else [⟨((pos.file : Int) + d.1).toNat, ((pos.rank : Int) + d.2).toNat⟩])
       else []) ++ acc)
    []

theorem mem_foldr_append {α β : Type} (g : α → List β) (l : List α) (x : β) :
    x ∈ l.foldr (fun a acc => g a ++ acc) [] ↔ ∃ a, a ∈ l ∧ x ∈ g a := by
  induction l with
  | nil => simp
  | cons a l ih =>
    simp only [List.foldr_cons, List.mem_append, ih, List.mem_cons]
    constructor
    · rintro (hx | ⟨a2, ha2, hx⟩)
      · exact ⟨a, Or.inl rfl, hx⟩
      · exact ⟨a2, Or.inr ha2, hx⟩
    · rintro ⟨a2, rfl | ha2, hx⟩
      · exact Or.inl hx
      · exact Or.inr ⟨a2, ha2, hx⟩

theorem is_empty_eq_not_sameColor (b : Board) (t : Square) (c : Color) :
    is_empty_or_capturable b t c = !(sameColorOccupied b t c) := by
  unfold is_empty_or_capturable sameColorOccupied
  cases piece_at b t with
  | none => rfl
  | some p => rfl

theorem mem_king_scan (b : Board) (pos : Square) (c : Color) (t : Square)
    (hf : pos.file ≤ 7) (hr : pos.rank ≤ 7) :
    t ∈ king_valid_moves b pos c ↔
      (t.file ≤ 7 ∧ t.rank ≤ 7 ∧
       max (((pos.file : Int) - (t.file : Int)).natAbs)
           (((pos.rank : Int) - (t.rank : Int)).natAbs) = 1 ∧
       sameColorOccupied b t c = false) := by
  unfold king_valid_moves
  rw [mem_foldr_append]
  constructor
  · rintro ⟨file, hfile, hmem⟩
    rw [mem_foldr_append] at hmem
    obtain ⟨rank, hrank, hx⟩ := hmem
    rw [List.mem_range] at hfile hrank
    have hnew : Square.new file rank = some ⟨file, rank⟩ :=
      Square.new_eq_some.mpr ⟨by omega, by omega, rfl⟩
    simp only [hnew] at hx
    by_cases hcond : (King.can_move_to pos ⟨file, rank⟩
        && is_empty_or_capturable b ⟨file, rank⟩ c) = true
    · rw [if_pos hcond] at hx
      obtain rfl : t = ⟨file, rank⟩ := List.mem_singleton.mp hx
      rw [Bool.and_eq_true] at hcond
      obtain ⟨hcan, hcap⟩ := hcond
      unfold King.can_move_to at hcan
      rw [decide_eq_true_eq] at hcan
      rw [is_empty_eq_not_sameColor, Bool.not_eq_true'] at hcap
      have hcan2 : (((pos.file : Int) - (file : Int)).natAbs ≤ 1 ∧
          ((pos.rank : Int) - (rank : Int)).natAbs ≤ 1) ∧
          ¬(((pos.file : Int) - (file : Int)).natAbs = 0 ∧
            ((pos.rank : Int) - (rank : Int)).natAbs = 0) := hcan
      refine ⟨show file ≤ 7 by omega, show rank ≤ 7 by omega, ?_, hcap⟩
      show max (((pos.file : Int) - (file : Int)).natAbs)
          (((pos.rank : Int) - (rank : Int)).natAbs) = 1
      omega
    · rw [if_neg hcond] at hx
      exact absurd hx (List.not_mem_nil t)
  · rintro ⟨h1, h2, h3, h4⟩
    refine ⟨t.file, List.mem_range.mpr (by omega), ?_⟩
    rw [mem_foldr_append]
    refine ⟨t.rank, List.mem_range.mpr (by omega), ?_⟩
    have hnew : Square.new t.file t.rank = some ⟨t.file, t.rank⟩ :=
      Square.new_eq_some.mpr ⟨by omega, by omega, rfl⟩
    have hteta : (⟨t.file, t.rank⟩ : Square) = t := rfl
    simp only [hnew, hteta]
    have hcond : (King.can_move_to pos t && is_empty_or_capturable b t c) = true := by
      rw [Bool.and_eq_true]
      constructor
      · unfold King.can_move_to
        rw [decide_eq_true_eq]
        omega
      · rw [is_empty_eq_not_sameColor, h4]
        rfl
    rw [if_pos hcond]
    exact List.mem_singleton.mpr rfl

theorem mem_king_neighbor_at (b : Board) (pos : Square) (c : Color) (d : Int × Int)
    (t : Square) :
    (t ∈ (if 0 ≤ (pos.file : Int) + d.1 ∧ (pos.file : Int) + d.1 ≤ 7 ∧
          0 ≤ (pos.rank : Int) + d.2 ∧ (pos.rank : Int) + d.2 ≤ 7 then
        (if sameColorOccupied b
            ⟨((pos.file : Int) + d.1).toNat, ((pos.rank : Int) + d.2).toNat⟩ c
         then []
         else [⟨((pos.file : Int) + d.1).toNat, ((pos.rank : Int) + d.2).toNat⟩])
       else [])) ↔
      (0 ≤ (pos.file : Int) + d.1 ∧ (pos.file : Int) + d.1 ≤ 7 ∧
       0 ≤ (pos.rank : Int) + d.2 ∧ (pos.rank : Int) + d.2 ≤ 7 ∧
       t = ⟨((pos.file : Int) + d.1).toNat, ((pos.rank : Int) + d.2).toNat⟩ ∧
       sameColorOccupied b t c = false) := by
  by_cases hb : 0 ≤ (pos.file : Int) + d.1 ∧ (pos.file : Int) + d.1 ≤ 7 ∧
      0 ≤ (pos.rank : Int) + d.2 ∧ (pos.rank : Int) + d.2 ≤ 7
  · rw [if_pos hb]
    cases hocc : sameColorOccupied b
        (⟨((pos.file : Int) + d.1).toNat, ((pos.rank : Int) + d.2).toNat⟩ : Square) c
    · rw [if_neg Bool.false_ne_true]
      simp only [List.mem_singleton]
      constructor
      · intro h5
        refine ⟨hb.1, hb.2.1, hb.2.2.1, hb.2.2.2, h5, ?_⟩
        rw [h5]
        exact hocc
      · rintro ⟨-, -, -, -, h5, -⟩
        exact h5
    · rw [if_pos rfl]
      simp only [List.not_mem_nil, false_iff]
      rintro ⟨-, -, -, -, h5, h6⟩
      rw [h5, hocc] at h6
      exact Bool.noConfusion h6
  · rw [if_neg hb]
    simp only [List.not_mem_nil, false_iff]
    rintro ⟨hA, hB, hC, hD, -⟩
    exact hb ⟨hA, hB, hC, hD⟩

theorem mem_king_neighbor (b : Board) (pos : Square) (c : Color) (t : Square)
    (hf : pos.file ≤ 7) (hr : pos.rank ≤ 7) :
    t ∈ king_neighbor_moves b pos c ↔
      (t.file ≤ 7 ∧ t.rank ≤ 7 ∧
       max (((pos.file : Int) - (t.file : Int)).natAbs)
           (((pos.rank : Int) - (t.rank : Int)).natAbs) = 1 ∧
       sameColorOccupied b t c = false) := by
  unfold king_neighbor_moves
  rw [mem_foldr_append]
  constructor
  · rintro ⟨d, hd, hx⟩
    rw [mem_king_neighbor_at] at hx
    obtain ⟨h1, h2, h3, h4, rfl, h6⟩ := hx
    have hd2 : (d.1 = -1 ∨ d.1 = 0 ∨ d.1 = 1) ∧ (d.2 = -1 ∨ d.2 = 0 ∨ d.2 = 1) ∧
        ¬(d.1 = 0 ∧ d.2 = 0) := by
      simp only [kingNeighborOffsets, List.mem_cons, List.not_mem_nil, or_false] at hd
      rcases hd with rfl | rfl | rfl | rfl | rfl | rfl | rfl | rfl <;> norm_num
    obtain ⟨ha, hb2, hc2⟩ := hd2
    refine ⟨show ((pos.file : Int) + d.1).toNat ≤ 7 by omega,
            show ((pos.rank : Int) + d.2).toNat ≤ 7 by omega, ?_, h6⟩
    show max (((pos.file : Int) - ((((pos.file : Int) + d.1).toNat : Nat) : Int)).natAbs)
        (((pos.rank : Int) - ((((pos.rank : Int) + d.2).toNat : Nat) : Int)).natAbs) = 1
    omega
  · rintro ⟨h1, h2, h3, h4⟩
    refine ⟨((t.file : Int) - pos.file, (t.rank : Int) - pos.rank), ?_, ?_⟩
    · have ha : (t.file : Int) - pos.file = -1 ∨ (t.file : Int) - pos.file = 0 ∨
          (t.file : Int) - pos.file = 1 := by omega
      have hb2 : (t.rank : Int) - pos.rank = -1 ∨ (t.rank : Int) - pos.rank = 0 ∨
          (t.rank : Int) - pos.rank = 1 := by omega
      have hc2 : ¬((t.file : Int) - pos.file = 0 ∧ (t.rank : Int) - pos.rank = 0) := by
        omega
      simp only [kingNeighborOffsets, List.mem_cons, List.not_mem_nil, or_false,
        Prod.mk.injEq]
      omega
    · rw [mem_king_neighbor_at]
      refine ⟨by omega, by omega, by omega, by omega, ?_, h4⟩
      have e1 : ((pos.file : Int) + ((t.file : Int) - pos.file)).toNat = t.file := by omega
      have e2 : ((pos.rank : Int) + ((t.rank : Int) - pos.rank)).toNat = t.rank := by omega
      show t = (⟨((pos.file : Int) + ((t.file : Int) - pos.file)).toNat,
        ((pos.rank : Int) + ((t.rank : Int) - pos.rank)).toNat⟩ : Square)
      rw [e1, e2]

/-- C9: the whole-board-scan implementation of the king move generator
returns exactly the on-board squares at Chebyshev distance 1 from the king
that are not occupied by a same-color piece — equivalently, it agrees with
direct 8-neighbor offset enumeration — and on the empty board it yields 8
moves from (4,4) and 3 from the corner (0,0). -/
theorem king_moves_equiv :
    (∀ (b : Board) (pos : Square) (c : Color), pos.file ≤ 7 → pos.rank ≤ 7 →
      ∀ t : Square,
        (t ∈ king_valid_moves b pos c ↔
          (t.file ≤ 7 ∧ t.rank ≤ 7 ∧
           max (((pos.file : Int) - (t.file : Int)).natAbs)
               (((pos.rank : Int) - (t.rank : Int)).natAbs) = 1 ∧
           sameColorOccupied b t c = false)) ∧
        (t ∈ king_valid_moves b pos c ↔ t ∈ king_neighbor_moves b pos c)) ∧
    (king_valid_moves (mkBoard []) ⟨4, 4⟩ Color.White).length = 8 ∧
    (king_valid_moves (mkBoard []) ⟨0, 0⟩ Color.White).length = 3 := by
  refine ⟨?_, ?_, ?_⟩
  · intro b pos c hf hr t
    refine ⟨mem_king_scan b pos c t hf hr, ?_⟩
    rw [mem_king_scan b pos c t hf hr, mem_king_neighbor b pos c t hf hr]
  · decide
  · decide

/-- C9 witness: e5 is among the empty-board king moves from e4 under both
the scan implementation and the neighbor enumeration. -/
theorem king_moves_equiv_witness :
    (⟨4, 5⟩ : Square) ∈ king_neighbor_moves (mkBoard []) ⟨4, 4⟩ Color.White :=
  ((king_moves_equiv.1 (mkBoard []) ⟨4, 4⟩ Color.White (by decide) (by decide) ⟨4, 5⟩).2).mp
    (by decide)

theorem slideLoop_mem_strict (b : Board) (c : Color) (df dr : Int)
    (hdf : -1 ≤ df ∧ df ≤ 1) (hdr : -1 ≤ dr ∧ dr ≤ 1) :
    ∀ (fuel : Nat) (f r : Int), 0 ≤ f → f ≤ 7 → 0 ≤ r → r ≤ 7 →
      ∀ t ∈ slideLoop b c df dr f r fuel,
        (t.file ≤ 7 ∧ t.rank ≤ 7) ∧
        (0 < df → f < (t.file : Int)) ∧ (df < 0 → (t.file : Int) < f) ∧
        (df = 0 → (t.file : Int) = f) ∧
        (0 < dr → r < (t.rank : Int)) ∧ (dr < 0 → (t.rank : Int) < r) ∧
        (dr = 0 → (t.rank : Int) = r) := by
  intro fuel
  induction fuel with
  | zero =>
    intro f r _ _ _ _ t ht
    simp [slideLoop] at ht
  | succ n ih =>
    intro f r hf0 hf7 hr0 hr7 t ht
    by_cases hoff : wrap32 (f + df) < 0 ∨ wrap32 (f + df) > 7 ∨
        wrap32 (r + dr) < 0 ∨ wrap32 (r + dr) > 7
    · rw [slideLoop_step_off b c df dr f r n hoff] at ht
      exact absurd ht (List.not_mem_nil t)
    · push_neg at hoff
      obtain ⟨h1, h2, h3, h4⟩ := hoff
      have hw1 : wrap32 (f + df) = f + df := by
        unfold wrap32
        omega
      have hw2 : wrap32 (r + dr) = r + dr := by
        unfold wrap32
        omega
      rw [hw1] at h1 h2
      rw [hw2] at h3 h4
      have hon : 0 ≤ wrap32 (f + df) ∧ wrap32 (f + df) ≤ 7 ∧
          0 ≤ wrap32 (r + dr) ∧ wrap32 (r + dr) ≤ 7 := by
        rw [hw1, hw2]
        exact ⟨h1, by omega, h3, by omega⟩
      have hhead : ((⟨(f + df).toNat, (r + dr).toNat⟩ : Square).file ≤ 7 ∧
            (⟨(f + df).toNat, (r + dr).toNat⟩ : Square).rank ≤ 7) ∧
          (0 < df → f < ((⟨(f + df).toNat, (r + dr).toNat⟩ : Square).file : Int)) ∧
          (df < 0 → ((⟨(f + df).toNat, (r + dr).toNat⟩ : Square).file : Int) < f) ∧
          (df = 0 → ((⟨(f + df).toNat, (r + dr).toNat⟩ : Square).file : Int) = f) ∧
          (0 < dr → r < ((⟨(f + df).toNat, (r + dr).toNat⟩ : Square).rank : Int)) ∧
          (dr < 0 → ((⟨(f + df).toNat, (r + dr).toNat⟩ : Square).rank : Int) < r) ∧
          (dr = 0 → ((⟨(f + df).toNat, (r + dr).toNat⟩ : Square).rank : Int) = r) := by
        refine ⟨⟨show (f + df).toNat ≤ 7 by omega, show (r + dr).toNat ≤ 7 by omega⟩,
          ?_, ?_, ?_, ?_, ?_, ?_⟩
        · intro h
          show f < (((f + df).toNat : Nat) : Int)
          omega
        · intro h
          show (((f + df).toNat : Nat) : Int) < f
          omega
        · intro h
          show (((f + df).toNat : Nat) : Int) = f
          omega
        · intro h
          show r < (((r + dr).toNat : Nat) : Int)
          omega
        · intro h
          show (((r + dr).toNat : Nat) : Int) < r
          omega
        · intro h
          show (((r + dr).toNat : Nat) : Int) = r
          omega
      have hcont : ∀ u ∈ slideLoop b c df dr (f + df) (r + dr) n,
          (u.file ≤ 7 ∧ u.rank ≤ 7) ∧
          (0 < df → f < (u.file : Int)) ∧ (df < 0 → (u.file : Int) < f) ∧
          (df = 0 → (u.file : Int) = f) ∧
          (0 < dr → r < (u.rank : Int)) ∧ (dr < 0 → (u.rank : Int) < r) ∧
          (dr = 0 → (u.rank : Int) = r) := by
        intro u hu
        obtain ⟨hb2, s1, s2, s3, s4, s5, s6⟩ :=
          ih (f + df) (r + dr) (by omega) (by omega) (by omega) (by omega) u hu
        refine ⟨hb2, ?_, ?_, ?_, ?_, ?_, ?_⟩ <;> intro h
        · have := s1 h; omega
        · have := s2 h; omega
        · have := s3 h; omega
        · have := s4 h; omega
        · have := s5 h; omega
        · have := s6 h; omega
      cases hp : piece_at b (⟨(f + df).toNat, (r + dr).toNat⟩ : Square) with
      | none =>
        rw [slideLoop_step_empty b c df dr f r (f + df) (r + dr) n hw1 hw2
          ⟨h1, by omega, h3, by omega⟩ hp] at ht
        rcases List.mem_cons.mp ht with rfl | ht2
        · exact hhead
        · exact hcont t ht2
      | some p =>
        by_cases hcol : piece_color p = some c
        · rw [slideLoop_step_own b c df dr f r (f + df) (r + dr) n hw1 hw2
            ⟨h1, by omega, h3, by omega⟩ p hp hcol] at ht
          exact absurd ht (List.not_mem_nil t)
        · rw [slideLoop_step_opp b c df dr f r (f + df) (r + dr) n hw1 hw2
            ⟨h1, by omega, h3, by omega⟩ p hp hcol] at ht
          obtain rfl : t = ⟨(f + df).toNat, (r + dr).toNat⟩ := List.mem_singleton.mp ht
          exact hhead

/-- C10: every square any move generator returns is a valid on-board
square (file and rank at most 7) and differs from the moving piece's own
position — the wrapping integer casts on candidate coordinates that go
negative never produce a square inside the board. -/
theorem valid_moves_on_board_and_proper (b : Board) (src : Square) (c : Color)
    (hm : Bool) (hf : src.file ≤ 7) (hr : src.rank ≤ 7) :
    (∀ t ∈ king_valid_moves b src c, (t.file ≤ 7 ∧ t.rank ≤ 7) ∧ t ≠ src) ∧
    (∀ dirs : List (Int × Int),
      (∀ d ∈ dirs, (-1 ≤ d.1 ∧ d.1 ≤ 1) ∧ (-1 ≤ d.2 ∧ d.2 ≤ 1) ∧ ¬(d.1 = 0 ∧ d.2 = 0)) →
      ∀ t ∈ sliding_piece_moves b src c dirs, (t.file ≤ 7 ∧ t.rank ≤ 7) ∧ t ≠ src) ∧
    (∀ t ∈ knight_valid_moves b src c, (t.file ≤ 7 ∧ t.rank ≤ 7) ∧ t ≠ src) ∧
    (∀ t ∈ pawn_moves b src c hm, (t.file ≤ 7 ∧ t.rank ≤ 7) ∧ t ≠ src) := by
  refine ⟨?_, ?_, ?_, ?_⟩
  · intro t ht
    obtain ⟨h1, h2, h3, -⟩ := (mem_king_scan b src c t hf hr).mp ht
    refine ⟨⟨h1, h2⟩, ?_⟩
    rintro rfl
    omega
  · intro dirs hdirs
    rw [sliding_piece_moves]
    induction dirs with
    | nil =>
      intro t ht
      exact absurd ht (List.not_mem_nil t)
    | cons d rest ih =>
      intro t ht
      rw [sliding_moves_fuel] at ht
      rcases List.mem_append.mp ht with hray | hrest
      · obtain ⟨hd1, hd2, hd0⟩ := hdirs d (List.mem_cons_self d rest)
        obtain ⟨hb2, s1, s2, s3, s4, s5, s6⟩ :=
          slideLoop_mem_strict b c d.1 d.2 hd1 hd2 9 (src.file : Int) (src.rank : Int)
            (by omega) (by omega) (by omega) (by omega) t hray
        refine ⟨hb2, ?_⟩
        rintro rfl
        rcases lt_trichotomy d.1 0 with h | h | h
        · have := s2 h; omega
        · rcases lt_trichotomy d.2 0 with g | g | g
          · have := s5 g; omega
          · exact hd0 ⟨h, g⟩
          · have := s4 g; omega
        · have := s1 h; omega
      · exact ih (fun x hx => hdirs x (List.mem_cons_of_mem d hx)) t hrest
  · intro t ht
    unfold knight_valid_moves at ht
    rw [mem_foldr_append] at ht
    obtain ⟨d, hd, hx⟩ := ht
    have hd2 : (d.1 = 2 ∨ d.1 = -2 ∨ d.1 = 1 ∨ d.1 = -1) ∧
        (d.2 = 2 ∨ d.2 = -2 ∨ d.2 = 1 ∨ d.2 = -1) := by
      simp only [knightOffsets, List.mem_cons, List.not_mem_nil, or_false] at hd
      rcases hd with rfl | rfl | rfl | rfl | rfl | rfl | rfl | rfl <;> norm_num
    obtain ⟨ha, hb2⟩ := hd2
    cases hsq : Square.new (toU8 ((src.file : Int) + d.1)) (toU8 ((src.rank : Int) + d.2)) with
    | none =>
      rw [hsq] at hx
      exact absurd hx (List.not_mem_nil t)
    | some target =>
      rw [hsq] at hx
      simp only at hx
      obtain ⟨hu1, hu2, htg⟩ := Square.new_eq_some.mp hsq
      have ht2 : t = target := by
        by_cases hcap : is_empty_or_capturable b target c = true
        · rw [if_pos hcap] at hx
          exact List.mem_singleton.mp hx
        · rw [if_neg hcap] at hx
          exact absurd hx (List.not_mem_nil t)
      subst ht2
      subst htg
      refine ⟨⟨hu1, hu2⟩, ?_⟩
      intro heq
      have hfile : toU8 ((src.file : Int) + d.1) = src.file := congrArg Square.file heq
      unfold toU8 at hfile hu1
      rcases ha with h | h | h | h <;> rw [h] at hfile <;> omega
  · intro t ht
    rw [pawn_moves, List.mem_append] at ht
    have hd := pawnDir_cases c
    rcases ht with hfw | hcap
    · rcases (mem_pawnForward b src c hm t hf hr).mp hfw with
        ⟨hA, hB, rfl, -⟩ | ⟨-, hA, hB, rfl, -, -, -, -⟩
      · refine ⟨⟨hf, show ((src.rank : Int) + pawnDir c).toNat ≤ 7 by omega⟩, ?_⟩
        intro heq
        have : ((src.rank : Int) + pawnDir c).toNat = src.rank := congrArg Square.rank heq
        rcases hd with h | h <;> rw [h] at this hA hB <;> omega
      · refine ⟨⟨hf, show ((src.rank : Int) + 2 * pawnDir c).toNat ≤ 7 by omega⟩, ?_⟩
        intro heq
        have : ((src.rank : Int) + 2 * pawnDir c).toNat = src.rank := congrArg Square.rank heq
        rcases hd with h | h <;> rw [h] at this hA hB <;> omega
    · obtain ⟨df, hdf, hA, hB, hC, hD, rfl, -⟩ :=
        (mem_pawnCaptures b src c t hf hr).mp hcap
      refine ⟨⟨show ((src.file : Int) + df).toNat ≤ 7 by omega,
        show ((src.rank : Int) + pawnDir c).toNat ≤ 7 by omega⟩, ?_⟩
      intro heq
      have : ((src.file : Int) + df).toNat = src.file := congrArg Square.file heq
      rcases hdf with h | h <;> rw [h] at this hA hB <;> omega

/-- C10 witness: a knight move from e5 on the empty board lands on a valid
square different from e5. -/
theorem valid_moves_witness :
    (((⟨6, 5⟩ : Square).file ≤ 7 ∧ (⟨6, 5⟩ : Square).rank ≤ 7) ∧
      (⟨6, 5⟩ : Square) ≠ (⟨4, 4⟩ : Square)) :=
  (valid_moves_on_board_and_proper (mkBoard []) ⟨4, 4⟩ Color.White false
      (by decide) (by decide)).2.2.1 ⟨6, 5⟩ (by decide)

end RChess
